import Mathlib

/-!
Verification development for the Text Diff and Merge Tool
(`text_diff_merge.py`).

The engine is shallowly embedded below:

* `TextDiffMerge.Difflib` embeds Python's `difflib.SequenceMatcher`
  (`get_opcodes`, as used by `DiffMergeApp.compare_texts` via
  `difflib.SequenceMatcher(None, left_lines, right_lines)`, i.e. with
  `isjunk = None` and the default `autojunk = True`).
* `TextDiffMerge` embeds the application-level state and operations:
  block extraction, alignment spacers, navigation, merging, loading.

Documents are modelled at line granularity: a Tk text widget holding the
lines `l1, ..., ln` (each stored with its trailing newline) is modelled
as the list `[l1, ..., ln]`; a widget line carries a flag telling whether
it is tagged `"spacer"`.
-/

namespace TextDiffMerge

/-- Opcode tags produced by `difflib.SequenceMatcher.get_opcodes`. -/
inductive Tag
  | equal
  | replace
  | delete
  | insert
deriving DecidableEq, Repr, Inhabited

/-- One opcode `(tag, i1, i2, j1, j2)`: the half-open range `[i1, i2)` of
the left sequence corresponds to the half-open range `[j1, j2)` of the
right sequence. -/
structure Opcode where
  tag : Tag
  i1 : Nat
  i2 : Nat
  j1 : Nat
  j2 : Nat
deriving DecidableEq, Repr, Inhabited

namespace Difflib

/-- The ascending list of positions of `s` in `b`; this is the list
`b2j[s]` built by `SequenceMatcher.__chain_b` before junk purging. -/
def positionsOf (b : List String) (s : String) : List Nat :=
  (List.range b.length).filter (fun j => b.getD j "" == s)

/-- `__chain_b`'s autojunk test: with `autojunk = True` and `len(b) >= 200`,
elements occurring more than `len(b) // 100 + 1` times are purged from
`b2j` (with `isjunk = None` the junk set itself is empty). -/
def isPopular (b : List String) (s : String) : Bool :=
  200 ≤ b.length && b.length / 100 + 1 < (positionsOf b s).length

/-- `b2j` lookup with default `[]`, after autojunk purging. -/
def b2j (b : List String) (s : String) : List Nat :=
  if isPopular b s then [] else positionsOf b s

/-- Inner loop of `find_longest_match` for one row `i`:
`for j in b2j.get(a[i], nothing)` over the remaining positions, with
`continue` on `j < blo` and `break` on `j >= bhi` (positions ascend).
`j2len` is the previous row's dict (`j2lenget`), `acc` is `newj2len`
(a total function standing for the dict, absent keys mapped to `0`;
the Python lookup `j2len.get(j-1, 0)` has key `-1` absent whenever
`j = 0`, hence the explicit `j = 0` test). -/
def flmInner (blo bhi i : Nat) (j2len : Nat → Nat) :
    List Nat → (Nat → Nat) → Nat × Nat × Nat → ((Nat → Nat) × (Nat × Nat × Nat))
  | [], acc, best => (acc, best)
  | j :: js, acc, best =>
    if j < blo then flmInner blo bhi i j2len js acc best
    else if bhi ≤ j then (acc, best)
    else
      let k := (if j = 0 then 0 else j2len (j - 1)) + 1
      let acc2 := fun x => if x = j then k else acc x
      let best2 := if best.2.2 < k then (i + 1 - k, j + 1 - k, k) else best
      flmInner blo bhi i j2len js acc2 best2

/-- Outer loop of `find_longest_match`: `for i in range(alo, ahi)`,
threading `j2len` (the per-row dict) and the best match so far.
`b2j b (a.getD i "")` is the precomputed `b2j.get(a[i], nothing)`. -/
def flmOuter (a b : List String) (blo bhi : Nat) :
    List Nat → (Nat → Nat) → Nat × Nat × Nat → Nat × Nat × Nat
  | [], _, best => best
  | i :: rest, j2len, best =>
    let p := flmInner blo bhi i j2len (b2j b (a.getD i "")) (fun _ => 0) best
    flmOuter a b blo bhi rest p.1 p.2

/-- The first widening loop of `find_longest_match`:
`while besti > alo and bestj > blo and a[besti-1] == b[bestj-1]`
(the `isbjunk` tests are vacuous since `bjunk` is empty for
`isjunk = None`).  The fuel argument starts at `besti`; each iteration
decrements both the fuel and `besti`, so when fuel reaches `0` the
current `besti` is `0` and the loop guard is false anyway: the fueled
function computes exactly the loop. -/
def extendBackAux (a b : List String) (alo blo : Nat) :
    Nat → Nat → Nat → Nat → Nat × Nat × Nat
  | 0, besti, bestj, bestsize => (besti, bestj, bestsize)
  | fuel + 1, besti, bestj, bestsize =>
    if alo < besti ∧ blo < bestj ∧ a.getD (besti - 1) "" = b.getD (bestj - 1) "" then
      extendBackAux a b alo blo fuel (besti - 1) (bestj - 1) (bestsize + 1)
    else (besti, bestj, bestsize)

/-- The second widening loop of `find_longest_match`:
`while besti+bestsize < ahi and bestj+bestsize < bhi and
a[besti+bestsize] == b[bestj+bestsize]`.  The fuel starts at `ahi`;
the loop runs at most `ahi - (besti + bestsize) ≤ ahi` times, and once
fuel is exhausted after `ahi` iterations `besti + bestsize ≥ ahi` makes
the guard false anyway: the fueled function computes exactly the loop. -/
def extendFwdAux (a b : List String) (ahi bhi besti bestj : Nat) :
    Nat → Nat → Nat
  | 0, bestsize => bestsize
  | fuel + 1, bestsize =>
    if besti + bestsize < ahi ∧ bestj + bestsize < bhi ∧
        a.getD (besti + bestsize) "" = b.getD (bestj + bestsize) "" then
      extendFwdAux a b ahi bhi besti bestj fuel (bestsize + 1)
    else bestsize

/-- `SequenceMatcher.find_longest_match(alo, ahi, blo, bhi)`.
The final junk-widening loops of the Python source are identities here
because `bjunk` is empty when `isjunk = None`. -/
def findLongestMatch (a b : List String) (alo ahi blo bhi : Nat) : Nat × Nat × Nat :=
  let best := flmOuter a b blo bhi (List.range' alo (ahi - alo)) (fun _ => 0) (alo, blo, 0)
  let e := extendBackAux a b alo blo best.1 best.1 best.2.1 best.2.2
  (e.1, e.2.1, extendFwdAux a b ahi bhi e.1 e.2.1 ahi e.2.2)

/-- The `while queue` loop of `get_matching_blocks`.  The queue is a
stack whose head is the most recently pushed rectangle (Python pushes
`(alo, i, blo, j)` then `(i+k, ahi, j+k, bhi)` and pops from the end).
The fuel argument makes the loop structural; `matchingBlocksRaw` runs it
with fuel `len(a) + len(b) + 1`, which dominates the loop's iteration
count (each iteration strictly decreases
`(sum over the queue of (ahi - alo) + (bhi - blo)) + queue length`,
which starts at `len(a) + len(b) + 1`; see `mbQueueAux_fuel_stable`). -/
def mbQueueAux (a b : List String) :
    Nat → List (Nat × Nat × Nat × Nat) → List (Nat × Nat × Nat) → List (Nat × Nat × Nat)
  | 0, _, acc => acc
  | _ + 1, [], acc => acc
  | fuel + 1, (alo, ahi, blo, bhi) :: rest, acc =>
    let m := findLongestMatch a b alo ahi blo bhi
    if m.2.2 = 0 then mbQueueAux a b fuel rest acc
    else
      let acc2 := acc ++ [m]
      let push2 :=
        if m.1 + m.2.2 < ahi ∧ m.2.1 + m.2.2 < bhi then
          [(m.1 + m.2.2, ahi, m.2.1 + m.2.2, bhi)] else []
      let push1 :=
        if alo < m.1 ∧ blo < m.2.1 then [(alo, m.1, blo, m.2.1)] else []
      mbQueueAux a b fuel (push2 ++ push1 ++ rest) acc2

/-- The unsorted `matching_blocks` list of `get_matching_blocks`. -/
def matchingBlocksRaw (a b : List String) : List (Nat × Nat × Nat) :=
  mbQueueAux a b (a.length + b.length + 1) [(0, a.length, 0, b.length)] []

/-- Lexicographic order on `Match` triples: `matching_blocks.sort()`. -/
def tripleLe (x y : Nat × Nat × Nat) : Bool :=
  decide (x.1 < y.1 ∨ (x.1 = y.1 ∧
    (x.2.1 < y.2.1 ∨ (x.2.1 = y.2.1 ∧ x.2.2 ≤ y.2.2))))

/-- The second loop of `get_matching_blocks`: collapse adjacent blocks.
The arguments `i1 j1 k1` are the running accumulator (initially
`i1 = j1 = k1 = 0`); a finished group is emitted only `if k1`. -/
def coalesce : Nat → Nat → Nat → List (Nat × Nat × Nat) → List (Nat × Nat × Nat)
  | i1, j1, k1, [] => if k1 ≠ 0 then [(i1, j1, k1)] else []
  | i1, j1, k1, (i2, j2, k2) :: rest =>
    if i1 + k1 = i2 ∧ j1 + k1 = j2 then
      coalesce i1 j1 (k1 + k2) rest
    else if k1 ≠ 0 then
      (i1, j1, k1) :: coalesce i2 j2 k2 rest
    else
      coalesce i2 j2 k2 rest

/-- `matching_blocks.sort()`: Python's sort is a stable sort under the
lexicographic tuple order `tripleLe`.  Since that order is total and
antisymmetric, every sorted permutation of the list is the same list,
so the insertion sort used here computes exactly Python's result. -/
def sortBlocks (l : List (Nat × Nat × Nat)) : List (Nat × Nat × Nat) :=
  l.insertionSort fun x y => tripleLe x y = true

/-- `SequenceMatcher.get_matching_blocks`: sort, collapse adjacent
blocks, then append the sentinel `(la, lb, 0)`. -/
def getMatchingBlocks (a b : List String) : List (Nat × Nat × Nat) :=
  coalesce 0 0 0 (sortBlocks (matchingBlocksRaw a b)) ++
    [(a.length, b.length, 0)]

/-- The loop of `get_opcodes` over the matching blocks, threading the
current position `(i, j)`. -/
def opcodesFromBlocks : Nat → Nat → List (Nat × Nat × Nat) → List Opcode
  | _, _, [] => []
  | i, j, (ai, bj, size) :: rest =>
    let head1 : List Opcode :=
      if i < ai ∧ j < bj then [⟨Tag.replace, i, ai, j, bj⟩]
      else if i < ai then [⟨Tag.delete, i, ai, j, bj⟩]
      else if j < bj then [⟨Tag.insert, i, ai, j, bj⟩]
      else []
    let head2 : List Opcode :=
      if size ≠ 0 then [⟨Tag.equal, ai, ai + size, bj, bj + size⟩] else []
    head1 ++ head2 ++ opcodesFromBlocks (ai + size) (bj + size) rest

/-- `SequenceMatcher(None, a, b).get_opcodes()`. -/
def getOpcodes (a b : List String) : List Opcode :=
  opcodesFromBlocks 0 0 (getMatchingBlocks a b)

end Difflib

/-- One visual line of a text widget: its text (without the trailing
newline) and whether it carries the `"spacer"` tag. -/
structure VisLine where
  text : String
  spacer : Bool
deriving DecidableEq, Repr, Inhabited

/-- `DiffBlock`: container describing a single difference block. -/
structure DiffBlock where
  tag : Tag
  left_range : Nat × Nat
  right_range : Nat × Nat
  left_tag : Option String
  right_tag : Option String
deriving DecidableEq, Repr, Inhabited

/-- Which side the merge prefers (`merge_left` / `merge_right` /
`merge_both`). -/
inductive Prefer
  | left
  | right
  | both
deriving DecidableEq, Repr

/-- Observable outcome of `_merge_choice`: the "No difference selected."
info box, the "Nothing to merge for this choice." info box, or a
successful append. -/
inductive MergeOutcome
  | noSelection
  | nothingToMerge
  | appended
deriving DecidableEq, Repr

/-- Which text widget a load targets. -/
inductive Side
  | left
  | right
deriving DecidableEq, Repr

/-- The engine-relevant state of `DiffMergeApp`: the two document
widgets (lines with their spacer tags), the merge widget's lines, and
the comparison bookkeeping fields of the instance. -/
structure AppState where
  leftDoc : List VisLine
  rightDoc : List VisLine
  mergeBuf : List String
  opcodes : List Opcode
  blocks : List DiffBlock
  currentBlockIndex : Option Nat
  spacersApplied : Bool
  syncVar : Bool
  status : String
deriving DecidableEq, Repr

/-- A fresh application state whose two documents hold the given line
sequences (no spacer anywhere, as after loading/pasting text). -/
def mkInitial (L R : List String) : AppState where
  leftDoc := L.map (fun s => ⟨s, false⟩)
  rightDoc := R.map (fun s => ⟨s, false⟩)
  mergeBuf := []
  opcodes := []
  blocks := []
  currentBlockIndex := none
  spacersApplied := false
  syncVar := false
  status := "Load two files or paste text, then click Compare."

/-- `_remove_spacer_lines`: delete every `"spacer"`-tagged range from
both documents (the reversed per-range deletion removes exactly the
tagged lines) and reset `_spacers_applied`. -/
def removeSpacerLinesSt (st : AppState) : AppState :=
  { st with
    leftDoc := st.leftDoc.filter (fun l => !l.spacer)
    rightDoc := st.rightDoc.filter (fun l => !l.spacer)
    spacersApplied := false }

/-- `_insert_spacer_lines(widget, line, count)`: insert `count` empty
lines tagged `"spacer"` at the start of 1-based visual line `line`
(no-op when `count <= 0`, which in this `Nat` model is `count = 0`). -/
def insertSpacerLines (doc : List VisLine) (line count : Nat) : List VisLine :=
  if count = 0 then doc
  else doc.take (line - 1) ++ List.replicate count ⟨"", true⟩ ++ doc.drop (line - 1)

/-- The body of the opcode loop of `_apply_alignment_spacers`, acting on
`(left doc, right doc, left_offset, right_offset)`. -/
def spacerStep (st : List VisLine × List VisLine × Nat × Nat) (op : Opcode) :
    List VisLine × List VisLine × Nat × Nat :=
  if op.tag = Tag.equal then st
  else
    let left_len := op.i2 - op.i1
    let right_len := op.j2 - op.j1
    if left_len = right_len then st
    else if right_len < left_len then
      let count := left_len - right_len
      let line := op.j2 + st.2.2.2 + 1
      (st.1, insertSpacerLines st.2.1 line count, st.2.2.1, st.2.2.2 + count)
    else
      let count := right_len - left_len
      let line := op.i2 + st.2.2.1 + 1
      (insertSpacerLines st.1 line count, st.2.1, st.2.2.1 + count, st.2.2.2)

/-- `_apply_alignment_spacers`: guarded by `_spacers_applied` and by the
presence of opcodes; clears old spacers, then walks the opcodes with
both offsets starting at `0`. -/
def applyAlignmentSpacersSt (st : AppState) : AppState :=
  if st.spacersApplied then st
  else if st.opcodes = [] then { st with spacersApplied := true }
  else
    let st1 := removeSpacerLinesSt st
    let r := st.opcodes.foldl spacerStep (st1.leftDoc, st1.rightDoc, 0, 0)
    { st1 with leftDoc := r.1, rightDoc := r.2.1, spacersApplied := true }

/-- The Sync View checkbox toggle followed by `toggle_sync_view`: the
widget flips `sync_var`, then the command removes or applies spacers
accordingly and reports in the status bar. -/
def toggleSyncView (st : AppState) : AppState :=
  let st1 := { st with syncVar := !st.syncVar }
  if !st1.syncVar then
    { removeSpacerLinesSt st1 with status := "Sync view disabled." }
  else
    { applyAlignmentSpacersSt st1 with
      status := "Sync view enabled. Scrolls are now linked." }

/-- The block-building loop of `compare_texts`
(`for index, (tag, i1, i2, j1, j2) in enumerate(self._opcodes)`):
skip `equal`, give a side its highlight tag name only when that side's
range is non-empty, and append one `DiffBlock` per non-equal opcode. -/
def mkBlocksFrom : Nat → List Opcode → List DiffBlock
  | _, [] => []
  | index, op :: rest =>
    if op.tag = Tag.equal then mkBlocksFrom (index + 1) rest
    else
      let left_tag := if op.i1 < op.i2 then some ("left_block_" ++ toString index) else none
      let right_tag := if op.j1 < op.j2 then some ("right_block_" ++ toString index) else none
      ⟨op.tag, (op.i1, op.i2), (op.j1, op.j2), left_tag, right_tag⟩ ::
        mkBlocksFrom (index + 1) rest

/-- `_apply_current_block`'s status line. -/
def viewingStatus (idx total : Nat) : String :=
  "Viewing difference " ++ toString (idx + 1) ++ " of " ++ toString total

/-- `compare_texts`: remove spacers, split both widgets into lines, run
the sequence matcher, build the blocks, then either report identical
documents or (optionally) apply alignment spacers and move to block 0. -/
def compareTexts (st : AppState) : AppState :=
  let st1 := removeSpacerLinesSt st
  let left_lines := st1.leftDoc.map VisLine.text
  let right_lines := st1.rightDoc.map VisLine.text
  let st2 := { st1 with
    blocks := [], currentBlockIndex := none,
    opcodes := Difflib.getOpcodes left_lines right_lines }
  let blocks := mkBlocksFrom 0 st2.opcodes
  let st3 := { st2 with blocks := blocks }
  if blocks = [] then { st3 with status := "The documents are identical." }
  else
    let st4 :=
      if st3.syncVar then applyAlignmentSpacersSt st3
      else { st3 with spacersApplied := false }
    { st4 with
      currentBlockIndex := some 0
      status := viewingStatus 0 blocks.length }

/-- `prev_block`: no-op without blocks; from `None` go to block `0`;
otherwise Python's `(i - 1) % len(blocks)` (computed on `Int`, whose
`%` agrees with Python's for a positive modulus). -/
def prevBlock (st : AppState) : AppState :=
  if st.blocks = [] then st
  else
    let idx :=
      match st.currentBlockIndex with
      | none => 0
      | some i => (((i : Int) - 1) % (st.blocks.length : Int)).toNat
    { st with currentBlockIndex := some idx
              status := viewingStatus idx st.blocks.length }

/-- `next_block`: no-op without blocks; from `None` go to block `0`;
otherwise `(i + 1) % len(blocks)`. -/
def nextBlock (st : AppState) : AppState :=
  if st.blocks = [] then st
  else
    let idx :=
      match st.currentBlockIndex with
      | none => 0
      | some i => (i + 1) % st.blocks.length
    { st with currentBlockIndex := some idx
              status := viewingStatus idx st.blocks.length }

/-- `_is_spacer_line(widget, line)` for 1-based visual line `line`. -/
def isSpacerLine (doc : List VisLine) (line : Nat) : Bool :=
  (doc.getD (line - 1) ⟨"", false⟩).spacer

/-- `_extract_range(widget, (start, end))`: empty range gives the empty
text, otherwise collect visual lines `start+1 .. end` (1-based),
skipping `"spacer"`-tagged ones.  Each collected piece
`widget.get(f"{line}.0", f"{line}.0 +1line")` is one full line, so the
concatenated extraction is modelled as the list of line texts. -/
def extractRange (doc : List VisLine) (r : Nat × Nat) : List String :=
  if r.1 = r.2 then []
  else
    ((List.range' (r.1 + 1) (r.2 - r.1)).filter
        (fun line => !isSpacerLine doc line)).map
      (fun line => (doc.getD (line - 1) ⟨"", false⟩).text)

/-- The text the merge widget holds: every line is stored with its
trailing newline (`widget.get("1.0", tk.END)`). -/
def bufText (buf : List String) : String :=
  String.join (buf.map (fun s => s ++ "\n"))

/-- The emptiness test of `_merge_choice`:
`not self.merge_text.get("1.0", tk.END).strip()` — a Python string
strips to the empty (falsy) string exactly when every one of its
characters is whitespace. -/
def mergeBlank (buf : List String) : Bool :=
  (bufText buf).data.all (fun c => c.isWhitespace)

/-- The `chosen` text of `_merge_choice` for the block `block`. -/
def chosenText (st : AppState) (block : DiffBlock) (prefer : Prefer) : List String :=
  let left_text := extractRange st.leftDoc block.left_range
  let right_text := extractRange st.rightDoc block.right_range
  match prefer with
  | Prefer.left => left_text
  | Prefer.right => right_text
  | Prefer.both => left_text ++ right_text

/-- `_merge_choice(prefer)`: without a current block, report "No
difference selected."; with empty chosen text, report "Nothing to merge
for this choice."; otherwise insert at `"1.0"` when the buffer text
strips to nothing (the new lines land before any existing whitespace
lines) and at `tk.END` otherwise. -/
def mergeChoice (st : AppState) (prefer : Prefer) : AppState × MergeOutcome :=
  match st.currentBlockIndex with
  | none => (st, MergeOutcome.noSelection)
  | some idx =>
    let block := st.blocks.getD idx default
    let chosen := chosenText st block prefer
    if chosen = [] then (st, MergeOutcome.nothingToMerge)
    else
      ({ st with
          mergeBuf :=
            if mergeBlank st.mergeBuf then chosen ++ st.mergeBuf
            else st.mergeBuf ++ chosen
          status := "Appended selection to the merged document." },
        MergeOutcome.appended)

/-- `clear_merge`. -/
def clearMerge (st : AppState) : AppState :=
  { st with mergeBuf := [], status := "Cleared merged document." }

/-- `_load_file_into_widget(path, widget, side)`: the method removes the
spacer lines and clears `self._opcodes` *before* attempting to open the
file; an `OSError` then only shows an error box and returns, while a
successful read replaces the side's document.  The file system is the
excluded I/O collaborator, so the read's result is a parameter. -/
def loadFileIntoWidget (st : AppState) (side : Side)
    (readResult : Except String (List String)) : AppState :=
  let st1 := { removeSpacerLinesSt st with opcodes := ([] : List Opcode) }
  match readResult with
  | Except.error _ => st1
  | Except.ok contents =>
    let doc := contents.map (fun s => ⟨s, false⟩)
    match side with
    | Side.left => { st1 with leftDoc := doc, status := "Loaded left file" }
    | Side.right => { st1 with rightDoc := doc, status := "Loaded right file" }

/-- `a` and `b` agree on the `k`-long stretches starting at positions
`i` and `j` (and both stretches are in range). -/
def MatchAt (a b : List String) (i j k : Nat) : Prop :=
  i + k ≤ a.length ∧ j + k ≤ b.length ∧
    ∀ t, t < k → a.getD (i + t) "" = b.getD (j + t) ""

/-- `OpChain iend jend i j ops`: the opcode list `ops` tiles the two
index spaces exactly from `(i, j)` to `(iend, jend)` — each opcode's
ranges start exactly where the previous opcode's ranges ended (no gap,
no overlap) and the last opcode ends at `(iend, jend)`. -/
def OpChain (iend jend : Nat) : Nat → Nat → List Opcode → Prop
  | i, j, [] => i = iend ∧ j = jend
  | i, j, op :: rest =>
    op.i1 = i ∧ op.j1 = j ∧ i ≤ op.i2 ∧ j ≤ op.j2 ∧
      OpChain iend jend op.i2 op.j2 rest

/-- Concatenation, in order, of the left-side slices of the `equal`
opcodes of `ops`. -/
def equalConcatL (a : List String) : List Opcode → List String
  | [] => []
  | op :: rest =>
    if op.tag = Tag.equal then
      (a.drop op.i1).take (op.i2 - op.i1) ++ equalConcatL a rest
    else equalConcatL a rest

/-- Concatenation, in order, of the right-side slices of the `equal`
opcodes of `ops`. -/
def equalConcatR (b : List String) : List Opcode → List String
  | [] => []
  | op :: rest =>
    if op.tag = Tag.equal then
      (b.drop op.j1).take (op.j2 - op.j1) ++ equalConcatR b rest
    else equalConcatR b rest

namespace Difflib

/-- Invariant carried by the best-match candidate of
`find_longest_match` on the rectangle `[alo, ahi) × [blo, bhi)`:
in-range bounds and, for a non-trivial candidate, a genuine match;
a trivial candidate is exactly the initial `(alo, blo, 0)`. -/
def BestInv (a b : List String) (alo ahi blo bhi : Nat)
    (best : Nat × Nat × Nat) : Prop :=
  alo ≤ best.1 ∧ blo ≤ best.2.1 ∧
    (0 < best.2.2 → best.1 + best.2.2 ≤ ahi ∧ best.2.1 + best.2.2 ≤ bhi ∧
      MatchAt a b best.1 best.2.1 best.2.2) ∧
    (best.2.2 = 0 → best.1 = alo ∧ best.2.1 = blo)

/-- Invariant of the `j2len` dict before processing row `row`: a
non-zero entry at key `j` describes a match of that length ending at
row `row - 1` and column `j`. -/
def RowInv (a b : List String) (alo blo : Nat) (row : Nat)
    (f : Nat → Nat) : Prop :=
  ∀ j, 0 < f j →
    alo + f j ≤ row ∧ blo + f j ≤ j + 1 ∧ j + 1 ≤ b.length ∧
      MatchAt a b (row - f j) (j + 1 - f j) (f j)

/-- A queue rectangle `(alo, ahi, blo, bhi)` is well-formed and inside
both sequences. -/
def ProperRect (a b : List String) (r : Nat × Nat × Nat × Nat) : Prop :=
  r.1 ≤ r.2.1 ∧ r.2.1 ≤ a.length ∧ r.2.2.1 ≤ r.2.2.2 ∧ r.2.2.2 ≤ b.length

/-- The rectangle spanned by a matching block `(i, j, k)`. -/
def blockRect (m : Nat × Nat × Nat) : Nat × Nat × Nat × Nat :=
  (m.1, m.1 + m.2.2, m.2.1, m.2.1 + m.2.2)

/-- Two rectangles are separated: one ends, in both coordinates, before
the other starts. -/
def SepRect (r1 r2 : Nat × Nat × Nat × Nat) : Prop :=
  (r1.2.1 ≤ r2.1 ∧ r1.2.2.2 ≤ r2.2.2.1) ∨
    (r2.2.1 ≤ r1.1 ∧ r2.2.2.2 ≤ r1.2.2.1)

/-- `r1` is contained in `r2`. -/
def SubRect (r1 r2 : Nat × Nat × Nat × Nat) : Prop :=
  r2.1 ≤ r1.1 ∧ r1.2.1 ≤ r2.2.1 ∧ r2.2.2.1 ≤ r1.2.2.1 ∧ r1.2.2.2 ≤ r2.2.2.2

/-- Matching block `m1` ends (in both coordinates) no later than `m2`
starts. -/
def ChainEnd (m1 m2 : Nat × Nat × Nat) : Prop :=
  m1.1 + m1.2.2 ≤ m2.1 ∧ m1.2.1 + m1.2.2 ≤ m2.2.1

/-- The `(i, j)` position reached by `get_opcodes` after walking the
given matching blocks. -/
def endOf : Nat → Nat → List (Nat × Nat × Nat) → Nat × Nat
  | i, j, [] => (i, j)
  | _, _, (ai, bj, size) :: rest => endOf (ai + size) (bj + size) rest

end Difflib

/-- Concrete comparison state for the replace example
`L = ["one","two","three"]`, `R = ["one","TWO","three"]`. -/
def replaceExample : AppState :=
  compareTexts (mkInitial ["one", "two", "three"] ["one", "TWO", "three"])

/-- Concrete comparison state for the whitespace-buffer trace: compare
`L = [" "]` with `R = ["x"]` and merge the left side (a single
whitespace line) into the empty merge buffer. -/
def blankTraceState : AppState :=
  (mergeChoice (compareTexts (mkInitial [" "] ["x"])) Prefer.left).1

/-- Concrete comparison state for the delete example `L = ["a","b"]`,
`R = ["a"]`. -/
def deleteExample : AppState :=
  compareTexts (mkInitial ["a", "b"] ["a"])

/-- Concrete comparison state with spacers applied: the delete example
with Sync View enabled. -/
def paddedExample : AppState :=
  toggleSyncView deleteExample

/-- A state with one block and an idle cursor. -/
def idleCursorExample : AppState :=
  { deleteExample with currentBlockIndex := none }

/- ------------------------------------------------------------------ -/
/- Theorems                                                           -/
/- ------------------------------------------------------------------ -/

theorem mkBlocksFrom_spec (n : Nat) (ops : List Opcode) :
    (mkBlocksFrom n ops).map
        (fun blk => (blk.tag, blk.left_range, blk.right_range,
          blk.left_tag.isSome, blk.right_tag.isSome))
      = (ops.filter (fun op => op.tag ≠ Tag.equal)).map
          (fun op => (op.tag, (op.i1, op.i2), (op.j1, op.j2),
            decide (op.i1 < op.i2), decide (op.j1 < op.j2))) := by
  induction ops generalizing n with
  | nil => rfl
  | cons op rest ih =>
    by_cases h : op.tag = Tag.equal
    · simp [mkBlocksFrom, h, ih]
    · simp only [mkBlocksFrom, if_neg h, List.map_cons, List.filter_cons]
      simp only [h, decide_not, List.map_cons]
      simp [ih]
      constructor
      · by_cases h1 : op.i1 < op.i2 <;> simp [h1]
      · by_cases h2 : op.j1 < op.j2 <;> simp [h2]

/-- C6: the block extractor skips every `equal` opcode, builds exactly
one `DiffBlock` per non-equal opcode, populates a side's highlight tag
exactly when that side's half-open range is non-empty, and emits the
blocks in opcode (document) order. -/
theorem block_extractor_spec (ops : List Opcode) :
    (mkBlocksFrom 0 ops).map
        (fun blk => (blk.tag, blk.left_range, blk.right_range,
          blk.left_tag.isSome, blk.right_tag.isSome))
      = (ops.filter (fun op => op.tag ≠ Tag.equal)).map
          (fun op => (op.tag, (op.i1, op.i2), (op.j1, op.j2),
            decide (op.i1 < op.i2), decide (op.j1 < op.j2))) :=
  mkBlocksFrom_spec 0 ops

/-- C5: with a non-empty block list of length `n`, `next` goes from
block `i` to block `(i+1) mod n` (so `next` wraps from the last block
to block `0`), `prev` goes to `(i-1) mod n` (so `prev` wraps from block
`0` to the last block), `next` from Idle goes to block `0`, and with no
blocks `next` and `prev` are no-ops. -/
theorem pythonPredMod (i n : Nat) (h : 0 < n) :
    (((i : Int) - 1) % (n : Int)).toNat = (i + n - 1) % n := by
  match i with
  | 0 =>
    have h1 : ((0 : Int) - 1) % (n : Int) = ((n : Int) - 1) % (n : Int) := by
      conv_lhs => rw [show (0 : Int) - 1 = ((n : Int) - 1) + (-1) * n by ring]
      rw [Int.add_mul_emod_self]
    have h2 : ((n : Int) - 1) % (n : Int) = (n : Int) - 1 :=
      Int.emod_eq_of_lt (by omega) (by omega)
    rw [show ((0 : Nat) : Int) = (0 : Int) from rfl, h1, h2]
    have h3 : (0 + n - 1) % n = n - 1 := by
      rw [Nat.zero_add, Nat.mod_eq_of_lt (by omega)]
    omega
  | k + 1 =>
    have h1 : ((k + 1 : Nat) : Int) - 1 = ((k : Nat) : Int) := by push_cast; ring
    rw [h1, ← Int.natCast_mod, Int.toNat_natCast]
    have h2 : k + 1 + n - 1 = k + n := by omega
    rw [h2, Nat.add_mod_right]

theorem navigator_spec :
    (∀ (st : AppState) (i : Nat), st.blocks ≠ [] → st.currentBlockIndex = some i →
      (nextBlock st).currentBlockIndex = some ((i + 1) % st.blocks.length) ∧
      (prevBlock st).currentBlockIndex =
        some ((i + st.blocks.length - 1) % st.blocks.length)) ∧
    (∀ st : AppState, st.blocks ≠ [] →
      st.currentBlockIndex = some (st.blocks.length - 1) →
      (nextBlock st).currentBlockIndex = some 0) ∧
    (∀ st : AppState, st.blocks ≠ [] → st.currentBlockIndex = some 0 →
      (prevBlock st).currentBlockIndex = some (st.blocks.length - 1)) ∧
    (∀ st : AppState, st.blocks ≠ [] → st.currentBlockIndex = none →
      (nextBlock st).currentBlockIndex = some 0) ∧
    (∀ st : AppState, st.blocks = [] → nextBlock st = st ∧ prevBlock st = st) := by
  have hprev : ∀ (st : AppState) (i : Nat), st.blocks ≠ [] →
      st.currentBlockIndex = some i →
      (prevBlock st).currentBlockIndex =
        some ((i + st.blocks.length - 1) % st.blocks.length) := by
    intro st i hne hcur
    have hlen : 0 < st.blocks.length := List.length_pos.mpr hne
    simp only [prevBlock, if_neg hne, hcur]
    rw [pythonPredMod i st.blocks.length hlen]
  refine ⟨?_, ?_, ?_, ?_, ?_⟩
  · intro st i hne hcur
    exact ⟨by simp [nextBlock, hne, hcur], hprev st i hne hcur⟩
  · intro st hne hcur
    have hlen : 0 < st.blocks.length := List.length_pos.mpr hne
    simp only [nextBlock, if_neg hne, hcur]
    have : st.blocks.length - 1 + 1 = st.blocks.length := by omega
    simp [this, Nat.mod_self]
  · intro st hne hcur
    have hlen : 0 < st.blocks.length := List.length_pos.mpr hne
    rw [hprev st 0 hne hcur]
    have : 0 + st.blocks.length - 1 = st.blocks.length - 1 := by omega
    rw [this, Nat.mod_eq_of_lt (by omega)]
  · intro st hne hcur
    simp [nextBlock, hne, hcur]
  · intro st he
    constructor <;> simp [nextBlock, prevBlock, he]

theorem navigator_spec_witness :
    (replaceExample.blocks ≠ [] ∧ replaceExample.currentBlockIndex = some 0) ∧
    (nextBlock replaceExample).currentBlockIndex =
      some ((0 + 1) % replaceExample.blocks.length) ∧
    (prevBlock replaceExample).currentBlockIndex =
      some (replaceExample.blocks.length - 1) :=
  ⟨⟨by decide, by decide⟩,
    (navigator_spec.1 replaceExample 0 (by decide) (by decide)).1,
    navigator_spec.2.2.1 replaceExample (by decide) (by decide)⟩

/-- C10: with a non-empty block list, `prev` from Idle (cursor `none`)
moves to block `0`, the same target as `next` from Idle, not to the
last block. -/
theorem prev_from_idle_spec :
    ∀ st : AppState, st.blocks ≠ [] → st.currentBlockIndex = none →
      (prevBlock st).currentBlockIndex = some 0 ∧
      (prevBlock st).currentBlockIndex = (nextBlock st).currentBlockIndex := by
  intro st hne hcur
  constructor <;> simp [prevBlock, nextBlock, hne, hcur]

theorem insertSpacerLines_filter (doc : List VisLine) (line count : Nat) :
    (insertSpacerLines doc line count).filter (fun l => !l.spacer)
      = doc.filter (fun l => !l.spacer) := by
  unfold insertSpacerLines
  by_cases h : count = 0
  · rw [if_pos h]
  · rw [if_neg h]
    rw [List.filter_append, List.filter_append]
    have hrep : (List.replicate count (⟨"", true⟩ : VisLine)).filter
        (fun l => !l.spacer) = [] := by
      simp
    rw [hrep, List.append_nil, ← List.filter_append, List.take_append_drop]

theorem spacerStep_filter (st : List VisLine × List VisLine × Nat × Nat) (op : Opcode) :
    ((spacerStep st op).1.filter (fun l => !l.spacer),
      (spacerStep st op).2.1.filter (fun l => !l.spacer))
      = (st.1.filter (fun l => !l.spacer), st.2.1.filter (fun l => !l.spacer)) := by
  unfold spacerStep
  by_cases h1 : op.tag = Tag.equal
  · rw [if_pos h1]
  · rw [if_neg h1]
    by_cases h2 : op.i2 - op.i1 = op.j2 - op.j1
    · simp only [if_pos h2]
    · rw [if_neg h2]
      by_cases h3 : op.j2 - op.j1 < op.i2 - op.i1
      · simp only [if_pos h3, insertSpacerLines_filter]
      · simp only [if_neg h3, insertSpacerLines_filter]

theorem foldl_spacerStep_filter (ops : List Opcode) :
    ∀ st : List VisLine × List VisLine × Nat × Nat,
      ((ops.foldl spacerStep st).1.filter (fun l => !l.spacer),
        (ops.foldl spacerStep st).2.1.filter (fun l => !l.spacer))
        = (st.1.filter (fun l => !l.spacer), st.2.1.filter (fun l => !l.spacer)) := by
  induction ops with
  | nil => intro st; rfl
  | cons op rest ih =>
    intro st
    rw [List.foldl_cons, ih (spacerStep st op), spacerStep_filter st op]

theorem filter_nospacer_idem (doc : List VisLine) :
    (doc.filter (fun l => !l.spacer)).filter (fun l => !l.spacer)
      = doc.filter (fun l => !l.spacer) := by
  rw [List.filter_filter]
  simp

theorem applyAlignmentSpacersSt_filter (st : AppState) :
    ((applyAlignmentSpacersSt st).leftDoc.filter (fun l => !l.spacer),
      (applyAlignmentSpacersSt st).rightDoc.filter (fun l => !l.spacer))
      = (st.leftDoc.filter (fun l => !l.spacer),
          st.rightDoc.filter (fun l => !l.spacer)) := by
  unfold applyAlignmentSpacersSt
  by_cases h1 : st.spacersApplied
  · rw [if_pos h1]
  · rw [if_neg h1]
    by_cases h2 : st.opcodes = []
    · rw [if_pos h2]
    · rw [if_neg h2]
      simp only [removeSpacerLinesSt]
      rw [foldl_spacerStep_filter st.opcodes]
      simp only [filter_nospacer_idem]

theorem applyAlignmentSpacersSt_syncVar (st : AppState) :
    (applyAlignmentSpacersSt st).syncVar = st.syncVar := by
  unfold applyAlignmentSpacersSt
  split
  · rfl
  · split
    · rfl
    · rfl

theorem toggleSyncView_syncVar (st : AppState) :
    (toggleSyncView st).syncVar = !st.syncVar := by
  unfold toggleSyncView
  dsimp only
  split
  · rfl
  · rw [applyAlignmentSpacersSt_syncVar]

theorem toggleSyncView_on_filter (st : AppState) (h : st.syncVar = false) :
    ((toggleSyncView st).leftDoc.filter (fun l => !l.spacer),
      (toggleSyncView st).rightDoc.filter (fun l => !l.spacer))
      = (st.leftDoc.filter (fun l => !l.spacer),
          st.rightDoc.filter (fun l => !l.spacer)) := by
  unfold toggleSyncView
  dsimp only
  simp only [h, Bool.not_false, Bool.not_true, Bool.false_eq_true, if_false]
  exact applyAlignmentSpacersSt_filter { st with syncVar := true }

theorem toggleSyncView_off_docs (st : AppState) (h : st.syncVar = true) :
    (toggleSyncView st).leftDoc = st.leftDoc.filter (fun l => !l.spacer) ∧
    (toggleSyncView st).rightDoc = st.rightDoc.filter (fun l => !l.spacer) := by
  unfold toggleSyncView
  dsimp only
  simp only [h, Bool.not_true, Bool.not_false, if_true, removeSpacerLinesSt]
  constructor
  · trivial
  · trivial

theorem compareTexts_docs (st : AppState) (h : st.syncVar = false) :
    (compareTexts st).leftDoc = st.leftDoc.filter (fun l => !l.spacer) ∧
    (compareTexts st).rightDoc = st.rightDoc.filter (fun l => !l.spacer) := by
  unfold compareTexts
  dsimp only
  simp only [removeSpacerLinesSt, h, Bool.false_eq_true, if_false]
  constructor
  · split
    · trivial
    · trivial
  · split
    · trivial
    · trivial

theorem compareTexts_syncVar (st : AppState) :
    (compareTexts st).syncVar = st.syncVar := by
  unfold compareTexts removeSpacerLinesSt
  dsimp only
  split
  · rfl
  · split
    · rw [applyAlignmentSpacersSt_syncVar]
    · rfl

theorem filter_nospacer_map (L : List String) :
    (L.map (fun s => (⟨s, false⟩ : VisLine))).filter (fun l => !l.spacer)
      = L.map (fun s => (⟨s, false⟩ : VisLine)) := by
  induction L with
  | nil => rfl
  | cons x xs ih => simp [ih]

theorem all_nospacer_map (L : List String) :
    (L.map (fun s => (⟨s, false⟩ : VisLine))).all (fun l => !l.spacer) = true := by
  induction L with
  | nil => rfl
  | cons x xs ih => simp [ih]

/-- C4: enabling alignment padding and then disabling it restores each
side's line count and content to exactly the pre-enable state, with no
residual spacer markers on either side. -/
theorem sync_toggle_round_trip (L R : List String) :
    (toggleSyncView (toggleSyncView (compareTexts (mkInitial L R)))).leftDoc
        = (compareTexts (mkInitial L R)).leftDoc ∧
    (toggleSyncView (toggleSyncView (compareTexts (mkInitial L R)))).rightDoc
        = (compareTexts (mkInitial L R)).rightDoc ∧
    (toggleSyncView (toggleSyncView (compareTexts (mkInitial L R)))).leftDoc.all
        (fun l => !l.spacer) = true ∧
    (toggleSyncView (toggleSyncView (compareTexts (mkInitial L R)))).rightDoc.all
        (fun l => !l.spacer) = true := by
  have hsync : (mkInitial L R).syncVar = false := rfl
  obtain ⟨h0l, h0r⟩ := compareTexts_docs (mkInitial L R) hsync
  set st0 := compareTexts (mkInitial L R) with hst0
  have h0l' : st0.leftDoc = L.map (fun s => (⟨s, false⟩ : VisLine)) := by
    rw [h0l, show (mkInitial L R).leftDoc = L.map (fun s => (⟨s, false⟩ : VisLine)) from rfl,
      filter_nospacer_map]
  have h0r' : st0.rightDoc = R.map (fun s => (⟨s, false⟩ : VisLine)) := by
    rw [h0r, show (mkInitial L R).rightDoc = R.map (fun s => (⟨s, false⟩ : VisLine)) from rfl,
      filter_nospacer_map]
  have h0sync : st0.syncVar = false := by
    rw [hst0, compareTexts_syncVar, hsync]
  have h1sync : (toggleSyncView st0).syncVar = true := by
    rw [toggleSyncView_syncVar, h0sync, Bool.not_false]
  obtain ⟨h2l, h2r⟩ := toggleSyncView_off_docs (toggleSyncView st0) h1sync
  have hfil := toggleSyncView_on_filter st0 h0sync
  have hfl : (toggleSyncView st0).leftDoc.filter (fun l => !l.spacer)
      = st0.leftDoc.filter (fun l => !l.spacer) := congrArg Prod.fst hfil
  have hfr : (toggleSyncView st0).rightDoc.filter (fun l => !l.spacer)
      = st0.rightDoc.filter (fun l => !l.spacer) := congrArg Prod.snd hfil
  have hclean_l : st0.leftDoc.filter (fun l => !l.spacer) = st0.leftDoc := by
    rw [h0l', filter_nospacer_map]
  have hclean_r : st0.rightDoc.filter (fun l => !l.spacer) = st0.rightDoc := by
    rw [h0r', filter_nospacer_map]
  refine ⟨?_, ?_, ?_, ?_⟩
  · rw [h2l, hfl, hclean_l]
  · rw [h2r, hfr, hclean_r]
  · rw [h2l, hfl, hclean_l, h0l']
    exact all_nospacer_map L
  · rw [h2r, hfr, hclean_r, h0r']
    exact all_nospacer_map R

theorem prev_from_idle_spec_witness :
    (idleCursorExample.blocks ≠ [] ∧ idleCursorExample.currentBlockIndex = none) ∧
    (prevBlock idleCursorExample).currentBlockIndex = some 0 ∧
    (prevBlock idleCursorExample).currentBlockIndex =
      (nextBlock idleCursorExample).currentBlockIndex :=
  ⟨⟨by decide, by decide⟩,
    (prev_from_idle_spec idleCursorExample (by decide) (by decide)).1,
    (prev_from_idle_spec idleCursorExample (by decide) (by decide)).2⟩

/-- C2: walking opcodes in order, the alignment padder inserts, for each
non-equal opcode with left length `Lc` greater than right length `Rc`,
exactly `Lc - Rc` spacer lines into the right side immediately after
visual line `right_end + rightOffset` (the inserted lines sit between
the first `right_end + rightOffset` visual lines and the rest),
increasing the right offset by that amount, symmetrically on the left
when `Rc > Lc`, and inserts nothing for `equal` opcodes or when
`Lc = Rc`; in particular for `L = ["a","b"]`, `R = ["a"]` exactly one
spacer line is inserted into `R` after visual line `1`. -/
theorem alignment_padder_spec :
    (∀ (ld rd : List VisLine) (lo ro : Nat) (op : Opcode),
      spacerStep (ld, rd, lo, ro) op =
        if op.tag = Tag.equal then (ld, rd, lo, ro)
        else if op.i2 - op.i1 = op.j2 - op.j1 then (ld, rd, lo, ro)
        else if op.j2 - op.j1 < op.i2 - op.i1 then
          (ld,
            rd.take (op.j2 + ro) ++
              List.replicate ((op.i2 - op.i1) - (op.j2 - op.j1)) ⟨"", true⟩ ++
              rd.drop (op.j2 + ro),
            lo, ro + ((op.i2 - op.i1) - (op.j2 - op.j1)))
        else
          (ld.take (op.i2 + lo) ++
              List.replicate ((op.j2 - op.j1) - (op.i2 - op.i1)) ⟨"", true⟩ ++
              ld.drop (op.i2 + lo),
            rd, lo + ((op.j2 - op.j1) - (op.i2 - op.i1)), ro)) ∧
    paddedExample.rightDoc = [⟨"a", false⟩, ⟨"", true⟩] ∧
    paddedExample.leftDoc = [⟨"a", false⟩, ⟨"b", false⟩] := by
  refine ⟨?_, by decide, by decide⟩
  intro ld rd lo ro op
  unfold spacerStep insertSpacerLines
  dsimp only
  by_cases h1 : op.tag = Tag.equal
  · rw [if_pos h1, if_pos h1]
  · rw [if_neg h1, if_neg h1]
    by_cases h2 : op.i2 - op.i1 = op.j2 - op.j1
    · rw [if_pos h2, if_pos h2]
    · rw [if_neg h2, if_neg h2]
      by_cases h3 : op.j2 - op.j1 < op.i2 - op.i1
      · rw [if_pos h3, if_pos h3, if_neg (by omega)]
        simp only [Nat.add_sub_cancel]
      · rw [if_neg h3, if_neg h3, if_neg (by omega)]
        simp only [Nat.add_sub_cancel]

theorem extractLines_eq (n : Nat) : ∀ (s : Nat) (doc : List VisLine),
    s + n ≤ doc.length →
    ((List.range' (s + 1) n).filter (fun line => !isSpacerLine doc line)).map
        (fun line => (doc.getD (line - 1) ⟨"", false⟩).text)
      = (((doc.drop s).take n).filter (fun l => !l.spacer)).map VisLine.text := by
  induction n with
  | zero => intro s doc _; simp
  | succ n ih =>
    intro s doc h
    have hs : s < doc.length := by omega
    rw [List.range'_succ, List.drop_eq_getElem_cons hs, List.take_succ_cons]
    have hsp : isSpacerLine doc (s + 1) = doc[s].spacer := by
      unfold isSpacerLine
      rw [Nat.add_sub_cancel, List.getD_eq_getElem doc ⟨"", false⟩ hs]
    have hget : doc.getD (s + 1 - 1) ⟨"", false⟩ = doc[s] := by
      rw [Nat.add_sub_cancel, List.getD_eq_getElem doc ⟨"", false⟩ hs]
    simp only [List.filter_cons, hsp]
    by_cases hb : doc[s].spacer
    · simp only [hb, Bool.not_true, Bool.false_eq_true, if_false]
      exact ih (s + 1) doc (by omega)
    · simp only [Bool.not_eq_true] at hb
      simp only [hb, Bool.not_false, if_true, List.map_cons, hget]
      rw [ih (s + 1) doc (by omega)]

theorem extractRange_spec_aux (doc : List VisLine) (s e : Nat) (h : e ≤ doc.length) :
    extractRange doc (s, e)
      = (((doc.drop s).take (e - s)).filter (fun l => !l.spacer)).map VisLine.text := by
  by_cases hse : s = e
  · unfold extractRange
    rw [if_pos hse]
    subst hse
    simp
  · unfold extractRange
    rw [if_neg hse]
    by_cases hle : s ≤ e
    · exact extractLines_eq (e - s) s doc (by omega)
    · have h0 : e - s = 0 := by omega
      rw [h0]
      simp

/-- C3: the merge composer extracts the literal text of the block's
range from the chosen side's (possibly padded) document, skipping every
line marked as spacer padding — spacer content never enters the merge
buffer —, concatenates left text then right text for the `both` choice,
and appends the result; in particular for `L = ["one","two","three"]`,
`R = ["one","TWO","three"]` there is exactly one `replace` block with
ranges `(1,2)`/`(1,2)` and merging the right side appends exactly the
line `"TWO"`. -/
theorem merge_composer_spec :
    (∀ (doc : List VisLine) (s e : Nat), e ≤ doc.length →
      extractRange doc (s, e)
        = (((doc.drop s).take (e - s)).filter (fun l => !l.spacer)).map VisLine.text) ∧
    (∀ (st : AppState) (block : DiffBlock),
      chosenText st block Prefer.both
        = extractRange st.leftDoc block.left_range ++
          extractRange st.rightDoc block.right_range) ∧
    replaceExample.blocks
        = [⟨Tag.replace, (1, 2), (1, 2), some "left_block_1", some "right_block_1"⟩] ∧
    replaceExample.currentBlockIndex = some 0 ∧
    mergeChoice replaceExample Prefer.right
        = ({ replaceExample with
              mergeBuf := ["TWO"]
              status := "Appended selection to the merged document." },
            MergeOutcome.appended) :=
  ⟨extractRange_spec_aux, fun _ _ => rfl, by decide, by decide, by decide⟩

theorem merge_composer_spec_witness :
    ((3 : Nat) ≤ ([⟨"a", false⟩, ⟨"", true⟩, ⟨"b", false⟩] : List VisLine).length) ∧
    extractRange [⟨"a", false⟩, ⟨"", true⟩, ⟨"b", false⟩] (0, 3)
      = (((([⟨"a", false⟩, ⟨"", true⟩, ⟨"b", false⟩] : List VisLine).drop 0).take
            (3 - 0)).filter (fun l => !l.spacer)).map VisLine.text :=
  ⟨by decide, merge_composer_spec.1 [⟨"a", false⟩, ⟨"", true⟩, ⟨"b", false⟩] 0 3 (by decide)⟩

/-- C8: extracting an empty range (`start = end`) yields the empty
text, and a merge request whose chosen text is empty leaves the merge
buffer (indeed the whole state) unchanged and reports the informational
"nothing to merge" outcome. -/
theorem empty_selection_spec :
    (∀ (doc : List VisLine) (s : Nat), extractRange doc (s, s) = []) ∧
    (∀ (st : AppState) (idx : Nat) (prefer : Prefer),
      st.currentBlockIndex = some idx →
      chosenText st (st.blocks.getD idx default) prefer = [] →
      mergeChoice st prefer = (st, MergeOutcome.nothingToMerge)) := by
  constructor
  · intro doc s
    unfold extractRange
    rw [if_pos rfl]
  · intro st idx prefer hcur hch
    unfold mergeChoice
    rw [hcur]
    dsimp only
    rw [if_pos hch]

theorem empty_selection_spec_witness :
    extractRange deleteExample.rightDoc (1, 1) = [] ∧
    (deleteExample.currentBlockIndex = some 0 ∧
      chosenText deleteExample (deleteExample.blocks.getD 0 default) Prefer.right = []) ∧
    mergeChoice deleteExample Prefer.right = (deleteExample, MergeOutcome.nothingToMerge) :=
  ⟨empty_selection_spec.1 deleteExample.rightDoc 1,
    ⟨by decide, by decide⟩,
    empty_selection_spec.2 deleteExample 0 Prefer.right (by decide) (by decide)⟩

/-- C7 counterexample: merging the single whitespace line `" "` of the
left document leaves a non-empty merge buffer `[" "]`, yet the next
merge (of `"x"` from the right side) is inserted at the start, before
the existing content — not after all existing content as the claim
states. -/
theorem merge_append_counterexample :
    blankTraceState.mergeBuf = [" "] ∧
    blankTraceState.mergeBuf ≠ [] ∧
    blankTraceState.currentBlockIndex = some 0 ∧
    chosenText blankTraceState (blankTraceState.blocks.getD 0 default) Prefer.right
      = ["x"] ∧
    (mergeChoice blankTraceState Prefer.right).1.mergeBuf = ["x", " "] ∧
    (mergeChoice blankTraceState Prefer.right).1.mergeBuf
      ≠ blankTraceState.mergeBuf ++ ["x"] := by decide

/-- C7 (amended): a successful merge appends its non-empty chosen text
at the start when the buffer text is empty or whitespace-only, and
after all existing content otherwise; in both cases the prior buffer
content is preserved (never overwritten or removed); an unsuccessful
merge request leaves the buffer unchanged, and only the explicit clear
operation empties it. -/
theorem merge_buffer_append_spec :
    (∀ (st : AppState) (prefer : Prefer) (st2 : AppState),
      mergeChoice st prefer = (st2, MergeOutcome.appended) →
      ∃ chosen : List String, chosen ≠ [] ∧
        st2.mergeBuf =
          (if mergeBlank st.mergeBuf then chosen ++ st.mergeBuf
            else st.mergeBuf ++ chosen) ∧
        ∃ pre post, st2.mergeBuf = pre ++ st.mergeBuf ++ post) ∧
    (∀ (st : AppState) (prefer : Prefer),
      (mergeChoice st prefer).2 ≠ MergeOutcome.appended →
      (mergeChoice st prefer).1.mergeBuf = st.mergeBuf) ∧
    (∀ st : AppState, (clearMerge st).mergeBuf = []) := by
  refine ⟨?_, ?_, fun st => rfl⟩
  · intro st prefer st2 h
    unfold mergeChoice at h
    cases hcur : st.currentBlockIndex with
    | none =>
      rw [hcur] at h
      exact absurd (congrArg Prod.snd h) (by simp)
    | some idx =>
      rw [hcur] at h
      dsimp only at h
      by_cases hch : chosenText st (st.blocks.getD idx default) prefer = []
      · rw [if_pos hch] at h
        exact absurd (congrArg Prod.snd h) (by simp)
      · rw [if_neg hch] at h
        have hfst := congrArg Prod.fst h
        dsimp only at hfst
        refine ⟨chosenText st (st.blocks.getD idx default) prefer, hch, ?_, ?_⟩
        · rw [← hfst]
        · by_cases hb : mergeBlank st.mergeBuf
          · refine ⟨chosenText st (st.blocks.getD idx default) prefer, [], ?_⟩
            rw [← hfst]
            simp [hb]
          · refine ⟨[], chosenText st (st.blocks.getD idx default) prefer, ?_⟩
            rw [← hfst]
            simp [hb]
  · intro st prefer hne
    cases hcur : st.currentBlockIndex with
    | none =>
      unfold mergeChoice
      rw [hcur]
    | some idx =>
      unfold mergeChoice at hne ⊢
      rw [hcur] at hne ⊢
      dsimp only at hne ⊢
      by_cases hch : chosenText st (st.blocks.getD idx default) prefer = []
      · rw [if_pos hch]
      · rw [if_neg hch] at hne
        exact absurd rfl hne

theorem merge_buffer_append_spec_witness :
    mergeChoice blankTraceState Prefer.right
        = ((mergeChoice blankTraceState Prefer.right).1, MergeOutcome.appended) ∧
    ∃ chosen : List String, chosen ≠ [] ∧
      (mergeChoice blankTraceState Prefer.right).1.mergeBuf =
        (if mergeBlank blankTraceState.mergeBuf then chosen ++ blankTraceState.mergeBuf
          else blankTraceState.mergeBuf ++ chosen) ∧
      ∃ pre post, (mergeChoice blankTraceState Prefer.right).1.mergeBuf
          = pre ++ blankTraceState.mergeBuf ++ post :=
  ⟨by decide,
    merge_buffer_append_spec.1 blankTraceState Prefer.right
      (mergeChoice blankTraceState Prefer.right).1 (by decide)⟩

/-- C9: the load routine removes the spacer lines and clears the opcode
list *before* attempting to open the file, so a load that fails with an
I/O error does not leave the existing comparison state untouched: on
the padded example the opcodes are lost and the right document's spacer
line is removed (the document text and the block list survive). -/
theorem failed_load_clears_state :
    paddedExample.opcodes ≠ [] ∧
    paddedExample.spacersApplied = true ∧
    paddedExample.rightDoc = [⟨"a", false⟩, ⟨"", true⟩] ∧
    (loadFileIntoWidget paddedExample Side.left (Except.error "Could not open file")).opcodes
      = [] ∧
    (loadFileIntoWidget paddedExample Side.left (Except.error "Could not open file")).rightDoc
      = [⟨"a", false⟩] ∧
    (loadFileIntoWidget paddedExample Side.left (Except.error "Could not open file")).leftDoc
      = paddedExample.leftDoc ∧
    (loadFileIntoWidget paddedExample Side.left (Except.error "Could not open file")).blocks
      = paddedExample.blocks := by decide

namespace Difflib

theorem matchAt_zero (a b : List String) (i j : Nat)
    (ha : i ≤ a.length) (hb : j ≤ b.length) : MatchAt a b i j 0 :=
  ⟨by omega, by omega, fun t ht => absurd ht (by omega)⟩

theorem matchAt_snoc (a b : List String) (i j m : Nat)
    (h : MatchAt a b i j m) (ha : i + m + 1 ≤ a.length) (hb : j + m + 1 ≤ b.length)
    (heq : a.getD (i + m) "" = b.getD (j + m) "") :
    MatchAt a b i j (m + 1) := by
  obtain ⟨_, _, hp⟩ := h
  refine ⟨ha, hb, ?_⟩
  intro t ht
  by_cases ht' : t < m
  · exact hp t ht'
  · have he : t = m := by omega
    subst he
    exact heq

theorem matchAt_prepend (a b : List String) (i j m : Nat)
    (h : MatchAt a b i j m) (hi : 1 ≤ i) (hj : 1 ≤ j)
    (heq : a.getD (i - 1) "" = b.getD (j - 1) "") :
    MatchAt a b (i - 1) (j - 1) (m + 1) := by
  obtain ⟨ha, hb, hp⟩ := h
  refine ⟨by omega, by omega, ?_⟩
  intro t ht
  match t with
  | 0 => simpa using heq
  | t' + 1 =>
    have h1 : i - 1 + (t' + 1) = i + t' := by omega
    have h2 : j - 1 + (t' + 1) = j + t' := by omega
    rw [h1, h2]
    exact hp t' (by omega)

theorem matchAt_append (a b : List String) (i j k1 k2 : Nat)
    (h1 : MatchAt a b i j k1) (h2 : MatchAt a b (i + k1) (j + k1) k2) :
    MatchAt a b i j (k1 + k2) := by
  obtain ⟨ha1, hb1, hp1⟩ := h1
  obtain ⟨ha2, hb2, hp2⟩ := h2
  refine ⟨by omega, by omega, ?_⟩
  intro t ht
  by_cases h : t < k1
  · exact hp1 t h
  · have heq : t = k1 + (t - k1) := by omega
    rw [heq, ← Nat.add_assoc, ← Nat.add_assoc]
    exact hp2 (t - k1) (by omega)

theorem mem_b2j {b : List String} {s : String} {j : Nat} (h : j ∈ b2j b s) :
    j < b.length ∧ b.getD j "" = s := by
  unfold b2j at h
  split at h
  · simp at h
  · unfold positionsOf at h
    rw [List.mem_filter] at h
    obtain ⟨h1, h2⟩ := h
    refine ⟨List.mem_range.mp h1, ?_⟩
    simpa using h2

theorem flmInner_inv (a b : List String) (alo ahi blo bhi i : Nat)
    (hia : i < a.length) (halo : alo ≤ i) (hi : i < ahi)
    (j2len : Nat → Nat) (hrow : RowInv a b alo blo i j2len) :
    ∀ (js : List Nat) (acc : Nat → Nat) (best : Nat × Nat × Nat),
      (∀ j ∈ js, j < b.length ∧ b.getD j "" = a.getD i "") →
      RowInv a b alo blo (i + 1) acc →
      BestInv a b alo ahi blo bhi best →
      RowInv a b alo blo (i + 1) (flmInner blo bhi i j2len js acc best).1 ∧
      BestInv a b alo ahi blo bhi (flmInner blo bhi i j2len js acc best).2 := by
  intro js
  induction js with
  | nil =>
    intro acc best _ hacc hbest
    exact ⟨hacc, hbest⟩
  | cons j js ih =>
    intro acc best hjs hacc hbest
    have hjb := hjs j (List.mem_cons_self j js)
    unfold flmInner
    by_cases h1 : j < blo
    · rw [if_pos h1]
      exact ih acc best (fun x hx => hjs x (List.mem_cons_of_mem j hx)) hacc hbest
    · rw [if_neg h1]
      by_cases h2 : bhi ≤ j
      · rw [if_pos h2]
        exact ⟨hacc, hbest⟩
      · rw [if_neg h2]
        dsimp only
        have hknew : alo + ((if j = 0 then 0 else j2len (j - 1)) + 1) ≤ i + 1 ∧
            blo + ((if j = 0 then 0 else j2len (j - 1)) + 1) ≤ j + 1 ∧
            j + 1 ≤ b.length ∧
            MatchAt a b (i + 1 - ((if j = 0 then 0 else j2len (j - 1)) + 1))
              (j + 1 - ((if j = 0 then 0 else j2len (j - 1)) + 1))
              ((if j = 0 then 0 else j2len (j - 1)) + 1) := by
          by_cases hj0 : j = 0
          · rw [if_pos hj0]
            subst hj0
            have hblo : blo = 0 := by omega
            refine ⟨by omega, by omega, by omega, ?_⟩
            simp only [Nat.add_sub_cancel]
            refine ⟨by omega, by omega, ?_⟩
            intro t ht
            have ht0 : t = 0 := by omega
            subst ht0
            simpa using hjb.2.symm
          · rw [if_neg hj0]
            by_cases hz : j2len (j - 1) = 0
            · rw [hz]
              refine ⟨by omega, by omega, by omega, ?_⟩
              simp only [Nat.zero_add, Nat.add_sub_cancel]
              refine ⟨by omega, by omega, ?_⟩
              intro t ht
              have ht0 : t = 0 := by omega
              subst ht0
              simpa using hjb.2.symm
            · obtain ⟨hm1, hm2, hm3, hm4⟩ := hrow (j - 1) (by omega)
              have e3 : j - 1 + 1 - j2len (j - 1) = j - j2len (j - 1) := by omega
              rw [e3] at hm4
              have hsnoc := matchAt_snoc a b (i - j2len (j - 1)) (j - j2len (j - 1))
                (j2len (j - 1)) hm4 (by omega) (by omega) (by
                  have e5 : i - j2len (j - 1) + j2len (j - 1) = i := by omega
                  have e6 : j - j2len (j - 1) + j2len (j - 1) = j := by omega
                  rw [e5, e6]
                  exact hjb.2.symm)
              refine ⟨by omega, by omega, by omega, ?_⟩
              have e1 : i + 1 - (j2len (j - 1) + 1) = i - j2len (j - 1) := by omega
              have e2 : j + 1 - (j2len (j - 1) + 1) = j - j2len (j - 1) := by omega
              rw [e1, e2]
              exact hsnoc
        obtain ⟨hk1, hk2, hk3, hk4⟩ := hknew
        have hacc2 : RowInv a b alo blo (i + 1)
            (fun x => if x = j then (if j = 0 then 0 else j2len (j - 1)) + 1
              else acc x) := by
          intro x hx
          by_cases hxj : x = j
          · subst hxj
            simp only [if_pos rfl] at hx ⊢
            exact ⟨hk1, hk2, hk3, hk4⟩
          · simp only [if_neg hxj] at hx ⊢
            exact hacc x hx
        have hbest2 : BestInv a b alo ahi blo bhi
            (if best.2.2 < (if j = 0 then 0 else j2len (j - 1)) + 1 then
              (i + 1 - ((if j = 0 then 0 else j2len (j - 1)) + 1),
                j + 1 - ((if j = 0 then 0 else j2len (j - 1)) + 1),
                (if j = 0 then 0 else j2len (j - 1)) + 1)
            else best) := by
          by_cases hlt : best.2.2 < (if j = 0 then 0 else j2len (j - 1)) + 1
          · rw [if_pos hlt]
            unfold BestInv
            dsimp only
            refine ⟨by omega, by omega, fun _ => ⟨by omega, by omega, hk4⟩,
              fun h0 => absurd h0 (Nat.succ_ne_zero _)⟩
          · rw [if_neg hlt]
            exact hbest
        exact ih _ _ (fun x hx => hjs x (List.mem_cons_of_mem j hx)) hacc2 hbest2

theorem flmOuter_inv (a b : List String) (alo blo ahi bhi : Nat)
    (hahi : ahi ≤ a.length) :
    ∀ (cnt alo2 : Nat) (f : Nat → Nat) (best : Nat × Nat × Nat),
      alo ≤ alo2 → alo2 + cnt ≤ ahi →
      RowInv a b alo blo alo2 f →
      BestInv a b alo ahi blo bhi best →
      BestInv a b alo ahi blo bhi
        (flmOuter a b blo bhi (List.range' alo2 cnt) f best) := by
  intro cnt
  induction cnt with
  | zero =>
    intro alo2 f best _ _ _ hbest
    exact hbest
  | succ n ih =>
    intro alo2 f best h1 h2 hrow hbest
    rw [List.range'_succ]
    unfold flmOuter
    dsimp only
    have hia : alo2 < a.length := by omega
    have hinner := flmInner_inv a b alo ahi blo bhi alo2 hia h1 (by omega) f hrow
      (b2j b (a.getD alo2 "")) (fun _ => 0) best
      (fun j hj => mem_b2j hj)
      (fun j hj => by simp at hj)
      hbest
    exact ih (alo2 + 1) _ _ (by omega) (by omega) hinner.1 hinner.2

theorem extendBackAux_inv (a b : List String) (alo blo ahi bhi : Nat)
    (hahi : ahi ≤ a.length) (hbhi : bhi ≤ b.length) :
    ∀ (fuel besti bestj bestsize : Nat),
      BestInv a b alo ahi blo bhi (besti, bestj, bestsize) →
      BestInv a b alo ahi blo bhi
        (extendBackAux a b alo blo fuel besti bestj bestsize) := by
  intro fuel
  induction fuel with
  | zero =>
    intro besti bestj bestsize h
    exact h
  | succ fuel ih =>
    intro besti bestj bestsize h
    unfold extendBackAux
    by_cases hg : alo < besti ∧ blo < bestj ∧
        a.getD (besti - 1) "" = b.getD (bestj - 1) ""
    · rw [if_pos hg]
      apply ih
      obtain ⟨hb1, hb2, hb3, hb4⟩ := h
      dsimp only at hb1 hb2 hb3 hb4
      have hg1 : alo < besti := hg.1
      have hg2 : blo < bestj := hg.2.1
      by_cases hk : 0 < bestsize
      · obtain ⟨hc1, hc2, hc3⟩ := hb3 hk
        have hpre := matchAt_prepend a b besti bestj bestsize hc3
          (by omega) (by omega) hg.2.2
        unfold BestInv
        dsimp only
        refine ⟨by omega, by omega, fun _ => ⟨by omega, by omega, hpre⟩,
          fun h0 => absurd h0 (Nat.succ_ne_zero _)⟩
      · have he := hb4 (by omega)
        exact absurd hg1 (by omega)
    · rw [if_neg hg]
      exact h

theorem extendFwdAux_inv (a b : List String) (alo blo ahi bhi besti bestj : Nat)
    (hahi : ahi ≤ a.length) (hbhi : bhi ≤ b.length)
    (hbi : alo ≤ besti) (hbj : blo ≤ bestj) :
    ∀ (fuel bestsize : Nat),
      (0 < bestsize → besti + bestsize ≤ ahi ∧ bestj + bestsize ≤ bhi ∧
        MatchAt a b besti bestj bestsize) →
      (0 < extendFwdAux a b ahi bhi besti bestj fuel bestsize →
        besti + extendFwdAux a b ahi bhi besti bestj fuel bestsize ≤ ahi ∧
        bestj + extendFwdAux a b ahi bhi besti bestj fuel bestsize ≤ bhi ∧
        MatchAt a b besti bestj (extendFwdAux a b ahi bhi besti bestj fuel bestsize)) ∧
      (extendFwdAux a b ahi bhi besti bestj fuel bestsize = 0 → bestsize = 0) := by
  intro fuel
  induction fuel with
  | zero =>
    intro bestsize h
    exact ⟨h, fun h0 => h0⟩
  | succ fuel ih =>
    intro bestsize h
    unfold extendFwdAux
    by_cases hg : besti + bestsize < ahi ∧ bestj + bestsize < bhi ∧
        a.getD (besti + bestsize) "" = b.getD (bestj + bestsize) ""
    · rw [if_pos hg]
      have hg1 : besti + bestsize < ahi := hg.1
      have hg2 : bestj + bestsize < bhi := hg.2.1
      have hmatch : MatchAt a b besti bestj bestsize := by
        by_cases hk : 0 < bestsize
        · exact (h hk).2.2
        · have h0 : bestsize = 0 := by omega
          subst h0
          exact matchAt_zero a b besti bestj (by omega) (by omega)
      have hs := matchAt_snoc a b besti bestj bestsize hmatch
        (by omega) (by omega) hg.2.2
      have hrec := ih (bestsize + 1) (fun _ => ⟨by omega, by omega, hs⟩)
      exact ⟨hrec.1, fun h0 => absurd (hrec.2 h0) (Nat.succ_ne_zero _)⟩
    · rw [if_neg hg]
      exact ⟨fun hk => h hk, fun h0 => h0⟩

theorem findLongestMatch_valid (a b : List String) (alo ahi blo bhi : Nat)
    (h1 : ahi ≤ a.length) (h2 : bhi ≤ b.length)
    (h3 : alo ≤ ahi) (h4 : blo ≤ bhi) :
    alo ≤ (findLongestMatch a b alo ahi blo bhi).1 ∧
    blo ≤ (findLongestMatch a b alo ahi blo bhi).2.1 ∧
    (0 < (findLongestMatch a b alo ahi blo bhi).2.2 →
      (findLongestMatch a b alo ahi blo bhi).1 +
          (findLongestMatch a b alo ahi blo bhi).2.2 ≤ ahi ∧
        (findLongestMatch a b alo ahi blo bhi).2.1 +
          (findLongestMatch a b alo ahi blo bhi).2.2 ≤ bhi ∧
        MatchAt a b (findLongestMatch a b alo ahi blo bhi).1
          (findLongestMatch a b alo ahi blo bhi).2.1
          (findLongestMatch a b alo ahi blo bhi).2.2) := by
  unfold findLongestMatch
  dsimp only
  have houter := flmOuter_inv a b alo blo ahi bhi h1 (ahi - alo) alo (fun _ => 0)
    (alo, blo, 0) (le_refl alo) (by omega)
    (fun j hj => by simp at hj)
    ⟨le_refl alo, le_refl blo, fun hk => by simp at hk, fun _ => ⟨rfl, rfl⟩⟩
  set best := flmOuter a b blo bhi (List.range' alo (ahi - alo)) (fun _ => 0)
    (alo, blo, 0) with hbestdef
  have hback := extendBackAux_inv a b alo blo ahi bhi h1 h2
    best.1 best.1 best.2.1 best.2.2 houter
  set e := extendBackAux a b alo blo best.1 best.1 best.2.1 best.2.2 with hedef
  obtain ⟨hk1, hk2, hk3, hk4⟩ := hback
  have hfwd := extendFwdAux_inv a b alo blo ahi bhi e.1 e.2.1 h1 h2 hk1 hk2
    ahi e.2.2 hk3
  refine ⟨hk1, hk2, ?_⟩
  intro hk
  exact hfwd.1 hk

theorem sepRect_symm {r1 r2 : Nat × Nat × Nat × Nat} (h : SepRect r1 r2) :
    SepRect r2 r1 :=
  h.elim (fun h => Or.inr h) (fun h => Or.inl h)

theorem subRect_sep {n r x : Nat × Nat × Nat × Nat} (hs : SubRect n r)
    (h : SepRect r x) : SepRect n x := by
  obtain ⟨s1, s2, s3, s4⟩ := hs
  cases h with
  | inl h =>
    obtain ⟨ha, hb⟩ := h
    exact Or.inl ⟨by omega, by omega⟩
  | inr h =>
    obtain ⟨ha, hb⟩ := h
    exact Or.inr ⟨by omega, by omega⟩

theorem pairwise_sep_build
    (q2 q1 rest accmap : List (Nat × Nat × Nat × Nat)) (bm rect : Nat × Nat × Nat × Nat)
    (hq2 : ∀ r ∈ q2, SubRect r rect) (hq1 : ∀ r ∈ q1, SubRect r rect)
    (hbm : SubRect bm rect)
    (hq2q1 : ∀ x ∈ q2, ∀ y ∈ q1, SepRect x y)
    (hq2bm : ∀ x ∈ q2, SepRect x bm) (hq1bm : ∀ x ∈ q1, SepRect x bm)
    (hq2p : q2.Pairwise SepRect) (hq1p : q1.Pairwise SepRect)
    (hhead : ∀ x ∈ rest ++ accmap, SepRect rect x)
    (hold : (rest ++ accmap).Pairwise SepRect) :
    ((q2 ++ q1 ++ rest) ++ (accmap ++ [bm])).Pairwise SepRect := by
  rw [List.pairwise_append]
  refine ⟨?_, ?_, ?_⟩
  · rw [List.pairwise_append]
    refine ⟨?_, (List.pairwise_append.mp hold).1, ?_⟩
    · rw [List.pairwise_append]
      exact ⟨hq2p, hq1p, hq2q1⟩
    · intro x hx y hy
      rcases List.mem_append.mp hx with hx1 | hx2
      · exact subRect_sep (hq2 x hx1) (hhead y (List.mem_append_left _ hy))
      · exact subRect_sep (hq1 x hx2) (hhead y (List.mem_append_left _ hy))
  · rw [List.pairwise_append]
    refine ⟨(List.pairwise_append.mp hold).2.1, by simp, ?_⟩
    intro x hx y hy
    rw [List.mem_singleton] at hy
    subst hy
    exact sepRect_symm (subRect_sep hbm (hhead x (List.mem_append_right _ hx)))
  · intro x hx y hy
    rcases List.mem_append.mp hy with hy1 | hy2
    · rcases List.mem_append.mp hx with hx12 | hx3
      · rcases List.mem_append.mp hx12 with hx1 | hx2
        · exact subRect_sep (hq2 x hx1) (hhead y (List.mem_append_right _ hy1))
        · exact subRect_sep (hq1 x hx2) (hhead y (List.mem_append_right _ hy1))
      · exact (List.pairwise_append.mp hold).2.2 x hx3 y hy1
    · rw [List.mem_singleton] at hy2
      subst hy2
      rcases List.mem_append.mp hx with hx12 | hx3
      · rcases List.mem_append.mp hx12 with hx1 | hx2
        · exact hq2bm x hx1
        · exact hq1bm x hx2
      · exact sepRect_symm (subRect_sep hbm (hhead x (List.mem_append_left _ hx3)))

theorem mbQueueAux_inv (a b : List String) :
    ∀ (fuel : Nat) (queue : List (Nat × Nat × Nat × Nat)) (acc : List (Nat × Nat × Nat)),
      (∀ r ∈ queue, ProperRect a b r) →
      (∀ m ∈ acc, 0 < m.2.2 ∧ MatchAt a b m.1 m.2.1 m.2.2) →
      List.Pairwise SepRect (queue ++ acc.map blockRect) →
      (∀ m ∈ mbQueueAux a b fuel queue acc,
        0 < m.2.2 ∧ MatchAt a b m.1 m.2.1 m.2.2) ∧
      List.Pairwise SepRect ((mbQueueAux a b fuel queue acc).map blockRect) := by
  intro fuel
  induction fuel with
  | zero =>
    intro queue acc _ h2 h3
    unfold mbQueueAux
    exact ⟨h2, (List.pairwise_append.mp h3).2.1⟩
  | succ fuel ih =>
    intro queue acc h1 h2 h3
    match queue with
    | [] =>
      unfold mbQueueAux
      exact ⟨h2, (List.pairwise_append.mp h3).2.1⟩
    | (alo, ahi, blo, bhi) :: rest =>
      unfold mbQueueAux
      dsimp only
      have hpr := h1 (alo, ahi, blo, bhi) (List.mem_cons_self _ _)
      obtain ⟨hp1, hp2, hp3, hp4⟩ := hpr
      dsimp only at hp1 hp2 hp3 hp4
      obtain ⟨hf1, hf2, hf3⟩ := findLongestMatch_valid a b alo ahi blo bhi hp2 hp4 hp1 hp3
      by_cases hk : (findLongestMatch a b alo ahi blo bhi).2.2 = 0
      · rw [if_pos hk]
        apply ih rest acc (fun r hr => h1 r (List.mem_cons_of_mem _ hr)) h2
        exact (List.pairwise_cons.mp h3).2
      · rw [if_neg hk]
        obtain ⟨hc1, hc2, hc3⟩ := hf3 (by omega)
        have hhead : ∀ x ∈ rest ++ acc.map blockRect,
            SepRect (alo, ahi, blo, bhi) x := by
          intro x hx
          exact (List.pairwise_cons.mp h3).1 x hx
        have hold : (rest ++ acc.map blockRect).Pairwise SepRect :=
          (List.pairwise_cons.mp h3).2
        set m := findLongestMatch a b alo ahi blo bhi with hmdef
        have hsub_bm : SubRect (blockRect m) (alo, ahi, blo, bhi) :=
          ⟨hf1, hc1, hf2, hc2⟩
        set q2 := if m.1 + m.2.2 < ahi ∧ m.2.1 + m.2.2 < bhi then
          [(m.1 + m.2.2, ahi, m.2.1 + m.2.2, bhi)] else
            ([] : List (Nat × Nat × Nat × Nat)) with hq2def
        set q1 := if alo < m.1 ∧ blo < m.2.1 then
          [(alo, m.1, blo, m.2.1)] else
            ([] : List (Nat × Nat × Nat × Nat)) with hq1def
        have hq2mem : ∀ r ∈ q2, r = (m.1 + m.2.2, ahi, m.2.1 + m.2.2, bhi) := by
          intro r hr
          rw [hq2def] at hr
          split at hr
          · simpa using hr
          · simp at hr
        have hq1mem : ∀ r ∈ q1, r = (alo, m.1, blo, m.2.1) := by
          intro r hr
          rw [hq1def] at hr
          split at hr
          · simpa using hr
          · simp at hr
        have hq2p : q2.Pairwise SepRect := by
          rw [hq2def]
          split
          · simp
          · simp
        have hq1p : q1.Pairwise SepRect := by
          rw [hq1def]
          split
          · simp
          · simp
        have hprop_q2 : ∀ r ∈ q2, ProperRect a b r := by
          intro r hr
          rw [hq2mem r hr]
          unfold ProperRect
          dsimp only
          exact ⟨by omega, by omega, by omega, by omega⟩
        have hprop_q1 : ∀ r ∈ q1, ProperRect a b r := by
          intro r hr
          rw [hq1mem r hr]
          unfold ProperRect
          dsimp only
          exact ⟨by omega, by omega, by omega, by omega⟩
        have hsub_q2 : ∀ r ∈ q2, SubRect r (alo, ahi, blo, bhi) := by
          intro r hr
          rw [hq2mem r hr]
          unfold SubRect
          dsimp only
          exact ⟨by omega, by omega, by omega, by omega⟩
        have hsub_q1 : ∀ r ∈ q1, SubRect r (alo, ahi, blo, bhi) := by
          intro r hr
          rw [hq1mem r hr]
          unfold SubRect
          dsimp only
          exact ⟨by omega, by omega, by omega, by omega⟩
        have hsep_q2q1 : ∀ x ∈ q2, ∀ y ∈ q1, SepRect x y := by
          intro x hx y hy
          rw [hq2mem x hx, hq1mem y hy]
          unfold SepRect
          dsimp only
          exact Or.inr ⟨by omega, by omega⟩
        have hsep_q2bm : ∀ x ∈ q2, SepRect x (blockRect m) := by
          intro x hx
          rw [hq2mem x hx]
          unfold SepRect blockRect
          dsimp only
          exact Or.inr ⟨by omega, by omega⟩
        have hsep_q1bm : ∀ x ∈ q1, SepRect x (blockRect m) := by
          intro x hx
          rw [hq1mem x hx]
          unfold SepRect blockRect
          dsimp only
          exact Or.inl ⟨by omega, by omega⟩
        apply ih (q2 ++ q1 ++ rest) (acc ++ [m])
        · intro r hr
          rcases List.mem_append.mp hr with hr1 | hr3
          · rcases List.mem_append.mp hr1 with hr11 | hr12
            · exact hprop_q2 r hr11
            · exact hprop_q1 r hr12
          · exact h1 r (List.mem_cons_of_mem _ hr3)
        · intro x hx
          rcases List.mem_append.mp hx with hx1 | hx2
          · exact h2 x hx1
          · rw [List.mem_singleton] at hx2
            subst hx2
            exact ⟨by omega, hc3⟩
        · rw [List.map_append]
          exact pairwise_sep_build q2 q1 rest (acc.map blockRect)
            (blockRect m) (alo, ahi, blo, bhi)
            hsub_q2 hsub_q1 hsub_bm hsep_q2q1 hsep_q2bm hsep_q1bm
            hq2p hq1p hhead hold

theorem tripleLe_total (x y : Nat × Nat × Nat) :
    tripleLe x y = true ∨ tripleLe y x = true := by
  unfold tripleLe
  simp only [decide_eq_true_eq]
  omega

theorem tripleLe_trans (x y z : Nat × Nat × Nat)
    (h1 : tripleLe x y = true) (h2 : tripleLe y z = true) :
    tripleLe x z = true := by
  unfold tripleLe at h1 h2 ⊢
  simp only [decide_eq_true_eq] at h1 h2 ⊢
  omega

theorem sortBlocks_perm (l : List (Nat × Nat × Nat)) : (sortBlocks l).Perm l :=
  List.perm_insertionSort _ l

theorem sortBlocks_sorted (l : List (Nat × Nat × Nat)) :
    (sortBlocks l).Pairwise (fun x y => tripleLe x y = true) := by
  unfold sortBlocks
  haveI : IsTotal (Nat × Nat × Nat) (fun x y => tripleLe x y = true) :=
    ⟨tripleLe_total⟩
  haveI : IsTrans (Nat × Nat × Nat) (fun x y => tripleLe x y = true) :=
    ⟨tripleLe_trans⟩
  exact List.sorted_insertionSort _ l

theorem sorted_sep_chain (l : List (Nat × Nat × Nat))
    (hval : ∀ m ∈ l, 0 < m.2.2)
    (hsorted : l.Pairwise (fun x y => tripleLe x y = true))
    (hsep : (l.map blockRect).Pairwise SepRect) :
    l.Pairwise ChainEnd := by
  rw [List.pairwise_map] at hsep
  refine (hsorted.and hsep).imp_of_mem ?_
  intro x y hx hy hxy
  obtain ⟨hle, hs⟩ := hxy
  have hky := hval y hy
  unfold tripleLe at hle
  simp only [decide_eq_true_eq] at hle
  unfold ChainEnd
  cases hs with
  | inl h =>
    unfold blockRect at h
    dsimp only at h
    exact h
  | inr h =>
    unfold blockRect at h
    dsimp only at h
    exact absurd hle (by omega)

theorem coalesce_inv (a b : List String) :
    ∀ (l : List (Nat × Nat × Nat)) (i1 j1 k1 : Nat),
      MatchAt a b i1 j1 k1 →
      (∀ m ∈ l, 0 < m.2.2 ∧ MatchAt a b m.1 m.2.1 m.2.2) →
      (∀ m ∈ l, i1 + k1 ≤ m.1 ∧ j1 + k1 ≤ m.2.1) →
      l.Pairwise ChainEnd →
      (∀ m ∈ coalesce i1 j1 k1 l, 0 < m.2.2 ∧ MatchAt a b m.1 m.2.1 m.2.2) ∧
      (coalesce i1 j1 k1 l).Pairwise ChainEnd ∧
      (∀ m ∈ coalesce i1 j1 k1 l, i1 ≤ m.1 ∧ j1 ≤ m.2.1) := by
  intro l
  induction l with
  | nil =>
    intro i1 j1 k1 hm _ _ _
    unfold coalesce
    by_cases hk : k1 ≠ 0
    · rw [if_pos hk]
      refine ⟨?_, by simp, ?_⟩
      · intro m hm2
        rw [List.mem_singleton] at hm2
        subst hm2
        exact ⟨by dsimp only; omega, hm⟩
      · intro m hm2
        rw [List.mem_singleton] at hm2
        subst hm2
        exact ⟨le_refl _, le_refl _⟩
    · rw [if_neg hk]
      exact ⟨by simp, by simp, by simp⟩
  | cons m2 rest ih =>
    obtain ⟨i2, j2, k2⟩ := m2
    intro i1 j1 k1 hm hval hafter hpair
    unfold coalesce
    have hv2 := hval (i2, j2, k2) (List.mem_cons_self _ _)
    dsimp only at hv2
    have ha2 := hafter (i2, j2, k2) (List.mem_cons_self _ _)
    dsimp only at ha2
    have hch : ∀ x ∈ rest, i2 + k2 ≤ x.1 ∧ j2 + k2 ≤ x.2.1 := by
      intro x hx
      exact (List.pairwise_cons.mp hpair).1 x hx
    have hvt := fun x hx => hval x (List.mem_cons_of_mem _ hx)
    have hpt := (List.pairwise_cons.mp hpair).2
    by_cases hadj : i1 + k1 = i2 ∧ j1 + k1 = j2
    · rw [if_pos hadj]
      obtain ⟨hadj1, hadj2⟩ := hadj
      have hm2 : MatchAt a b i1 j1 (k1 + k2) := by
        apply matchAt_append a b i1 j1 k1 k2 hm
        rw [hadj1, hadj2]
        exact hv2.2
      refine ih i1 j1 (k1 + k2) hm2 hvt ?_ hpt
      intro x hx
      have := hch x hx
      exact ⟨by omega, by omega⟩
    · rw [if_neg hadj]
      by_cases hk1 : k1 ≠ 0
      · rw [if_pos hk1]
        have hrec := ih i2 j2 k2 hv2.2 hvt hch hpt
        refine ⟨?_, ?_, ?_⟩
        · intro m hm2
          rcases List.mem_cons.mp hm2 with he | ht
          · subst he
            exact ⟨by dsimp only; omega, hm⟩
          · exact hrec.1 m ht
        · rw [List.pairwise_cons]
          refine ⟨?_, hrec.2.1⟩
          intro x hx
          obtain ⟨hx21, hx22⟩ := hrec.2.2 x hx
          unfold ChainEnd
          dsimp only
          exact ⟨by omega, by omega⟩
        · intro m hm2
          rcases List.mem_cons.mp hm2 with he | ht
          · subst he
            exact ⟨le_refl _, le_refl _⟩
          · obtain ⟨hm21, hm22⟩ := hrec.2.2 m ht
            exact ⟨by omega, by omega⟩
      · rw [if_neg hk1]
        have hk0 : k1 = 0 := by omega
        have hrec := ih i2 j2 k2 hv2.2 hvt hch hpt
        refine ⟨hrec.1, hrec.2.1, ?_⟩
        intro m hm2
        obtain ⟨hm21, hm22⟩ := hrec.2.2 m hm2
        exact ⟨by omega, by omega⟩

theorem endOf_sentinel (x y : Nat) :
    ∀ (l : List (Nat × Nat × Nat)) (i j : Nat),
      endOf i j (l ++ [(x, y, 0)]) = (x, y) := by
  intro l
  induction l with
  | nil =>
    intro i j
    simp [endOf]
  | cons m rest ih =>
    obtain ⟨ai, bj, size⟩ := m
    intro i j
    rw [List.cons_append]
    unfold endOf
    exact ih _ _

theorem getMatchingBlocks_inv (a b : List String) :
    (∀ m ∈ getMatchingBlocks a b, MatchAt a b m.1 m.2.1 m.2.2) ∧
    (getMatchingBlocks a b).Pairwise ChainEnd ∧
    endOf 0 0 (getMatchingBlocks a b) = (a.length, b.length) := by
  have hraw := mbQueueAux_inv a b (a.length + b.length + 1)
    [(0, a.length, 0, b.length)] []
    (by
      intro r hr
      rw [List.mem_singleton] at hr
      subst hr
      exact ⟨Nat.zero_le _, le_refl _, Nat.zero_le _, le_refl _⟩)
    (by intro m hm; simp at hm)
    (by simp)
  have hvalS : ∀ m ∈ sortBlocks (matchingBlocksRaw a b),
      0 < m.2.2 ∧ MatchAt a b m.1 m.2.1 m.2.2 := by
    intro m hm
    exact hraw.1 m ((sortBlocks_perm (matchingBlocksRaw a b)).mem_iff.mp hm)
  have hsepS : ((sortBlocks (matchingBlocksRaw a b)).map blockRect).Pairwise SepRect := by
    have hperm : ((sortBlocks (matchingBlocksRaw a b)).map blockRect).Perm
        ((matchingBlocksRaw a b).map blockRect) :=
      (sortBlocks_perm (matchingBlocksRaw a b)).map blockRect
    exact (List.Perm.pairwise_iff (fun hxy => sepRect_symm hxy) hperm).mpr hraw.2
  have hchainS := sorted_sep_chain (sortBlocks (matchingBlocksRaw a b))
    (fun m hm => (hvalS m hm).1)
    (sortBlocks_sorted (matchingBlocksRaw a b)) hsepS
  have hco := coalesce_inv a b (sortBlocks (matchingBlocksRaw a b)) 0 0 0
    (matchAt_zero a b 0 0 (Nat.zero_le _) (Nat.zero_le _))
    hvalS (fun m _ => ⟨Nat.zero_le _, Nat.zero_le _⟩) hchainS
  unfold getMatchingBlocks
  refine ⟨?_, ?_, endOf_sentinel a.length b.length _ 0 0⟩
  · intro m hm
    rcases List.mem_append.mp hm with h1 | h2
    · exact (hco.1 m h1).2
    · rw [List.mem_singleton] at h2
      subst h2
      exact matchAt_zero a b a.length b.length (le_refl _) (le_refl _)
  · rw [List.pairwise_append]
    refine ⟨hco.2.1, by simp, ?_⟩
    intro x hx y hy
    rw [List.mem_singleton] at hy
    subst hy
    have hmx := (hco.1 x hx).2
    obtain ⟨hb1, hb2, _⟩ := hmx
    unfold ChainEnd
    dsimp only
    exact ⟨hb1, hb2⟩

theorem matchAt_take_drop (a b : List String) (i j k : Nat)
    (h : MatchAt a b i j k) : (a.drop i).take k = (b.drop j).take k := by
  obtain ⟨ha, hb, hp⟩ := h
  apply List.ext_getElem
  · rw [List.length_take, List.length_take, List.length_drop, List.length_drop]
    omega
  · intro t h1 h2
    rw [List.length_take, List.length_drop] at h1
    have ht : t < k := by omega
    have hta : i + t < a.length := by omega
    have htb : j + t < b.length := by omega
    rw [List.getElem_take, List.getElem_drop, List.getElem_take, List.getElem_drop]
    have := hp t ht
    rwa [List.getD_eq_getElem a "" hta, List.getD_eq_getElem b "" htb] at this

theorem equalConcatL_cons (a : List String) (op : Opcode) (rest : List Opcode) :
    equalConcatL a (op :: rest)
      = if op.tag = Tag.equal then
          (a.drop op.i1).take (op.i2 - op.i1) ++ equalConcatL a rest
        else equalConcatL a rest := rfl

theorem equalConcatR_cons (b : List String) (op : Opcode) (rest : List Opcode) :
    equalConcatR b (op :: rest)
      = if op.tag = Tag.equal then
          (b.drop op.j1).take (op.j2 - op.j1) ++ equalConcatR b rest
        else equalConcatR b rest := rfl

theorem equalConcatL_append (a : List String) (l1 l2 : List Opcode) :
    equalConcatL a (l1 ++ l2) = equalConcatL a l1 ++ equalConcatL a l2 := by
  induction l1 with
  | nil => rfl
  | cons op rest ih =>
    rw [List.cons_append, equalConcatL_cons, equalConcatL_cons]
    by_cases h : op.tag = Tag.equal
    · rw [if_pos h, if_pos h, ih, List.append_assoc]
    · rw [if_neg h, if_neg h, ih]

theorem equalConcatR_append (b : List String) (l1 l2 : List Opcode) :
    equalConcatR b (l1 ++ l2) = equalConcatR b l1 ++ equalConcatR b l2 := by
  induction l1 with
  | nil => rfl
  | cons op rest ih =>
    rw [List.cons_append, equalConcatR_cons, equalConcatR_cons]
    by_cases h : op.tag = Tag.equal
    · rw [if_pos h, if_pos h, ih, List.append_assoc]
    · rw [if_neg h, if_neg h, ih]

theorem opChain_append (iend jend : Nat) :
    ∀ (l1 l2 : List Opcode) (i j imid jmid : Nat),
      OpChain imid jmid i j l1 → OpChain iend jend imid jmid l2 →
      OpChain iend jend i j (l1 ++ l2) := by
  intro l1
  induction l1 with
  | nil =>
    intro l2 i j imid jmid h1 h2
    obtain ⟨e1, e2⟩ := h1
    subst e1
    subst e2
    simpa using h2
  | cons op rest ih =>
    intro l2 i j imid jmid h1 h2
    obtain ⟨e1, e2, e3, e4, e5⟩ := h1
    exact ⟨e1, e2, e3, e4, ih l2 _ _ _ _ e5 h2⟩

theorem opcodesFromBlocks_spec (a b : List String) :
    ∀ (bs : List (Nat × Nat × Nat)) (i0 j0 : Nat),
      (∀ m ∈ bs, MatchAt a b m.1 m.2.1 m.2.2) →
      (∀ m ∈ bs, i0 ≤ m.1 ∧ j0 ≤ m.2.1) →
      bs.Pairwise ChainEnd →
      OpChain (endOf i0 j0 bs).1 (endOf i0 j0 bs).2 i0 j0
        (opcodesFromBlocks i0 j0 bs) ∧
      equalConcatL a (opcodesFromBlocks i0 j0 bs)
        = equalConcatR b (opcodesFromBlocks i0 j0 bs) := by
  intro bs
  induction bs with
  | nil =>
    intro i0 j0 _ _ _
    exact ⟨⟨rfl, rfl⟩, rfl⟩
  | cons m rest ih =>
    obtain ⟨ai, bj, size⟩ := m
    intro i0 j0 hval hstart hpair
    have hv := hval (ai, bj, size) (List.mem_cons_self _ _)
    dsimp only at hv
    have hs := hstart (ai, bj, size) (List.mem_cons_self _ _)
    dsimp only at hs
    have hch : ∀ x ∈ rest, ai + size ≤ x.1 ∧ bj + size ≤ x.2.1 := by
      intro x hx
      exact (List.pairwise_cons.mp hpair).1 x hx
    have hrec := ih (ai + size) (bj + size)
      (fun x hx => hval x (List.mem_cons_of_mem _ hx))
      hch
      (List.pairwise_cons.mp hpair).2
    unfold opcodesFromBlocks
    dsimp only
    have hend : endOf i0 j0 ((ai, bj, size) :: rest)
        = endOf (ai + size) (bj + size) rest := rfl
    rw [hend]
    set head1 : List Opcode :=
      (if i0 < ai ∧ j0 < bj then [⟨Tag.replace, i0, ai, j0, bj⟩]
        else if i0 < ai then [⟨Tag.delete, i0, ai, j0, bj⟩]
        else if j0 < bj then [⟨Tag.insert, i0, ai, j0, bj⟩]
        else []) with hh1
    set head2 : List Opcode :=
      (if size ≠ 0 then [⟨Tag.equal, ai, ai + size, bj, bj + size⟩] else [])
      with hh2
    have hchain1 : OpChain ai bj i0 j0 head1 := by
      rw [hh1]
      by_cases h1 : i0 < ai ∧ j0 < bj
      · rw [if_pos h1]
        exact ⟨rfl, rfl, hs.1, hs.2, rfl, rfl⟩
      · rw [if_neg h1]
        by_cases h2 : i0 < ai
        · rw [if_pos h2]
          exact ⟨rfl, rfl, hs.1, hs.2, rfl, rfl⟩
        · rw [if_neg h2]
          by_cases h3 : j0 < bj
          · rw [if_pos h3]
            exact ⟨rfl, rfl, hs.1, hs.2, rfl, rfl⟩
          · rw [if_neg h3]
            exact ⟨by omega, by omega⟩
    have hchain2 : OpChain (ai + size) (bj + size) ai bj head2 := by
      rw [hh2]
      by_cases h1 : size ≠ 0
      · rw [if_pos h1]
        refine ⟨rfl, rfl, ?_, ?_, rfl, rfl⟩
        · dsimp only
          omega
        · dsimp only
          omega
      · rw [if_neg h1]
        exact ⟨by omega, by omega⟩
    have heq1 : equalConcatL a head1 = [] ∧ equalConcatR b head1 = [] := by
      rw [hh1]
      by_cases h1 : i0 < ai ∧ j0 < bj
      · rw [if_pos h1]
        exact ⟨rfl, rfl⟩
      · rw [if_neg h1]
        by_cases h2 : i0 < ai
        · rw [if_pos h2]
          exact ⟨rfl, rfl⟩
        · rw [if_neg h2]
          by_cases h3 : j0 < bj
          · rw [if_pos h3]
            exact ⟨rfl, rfl⟩
          · rw [if_neg h3]
            exact ⟨rfl, rfl⟩
    have heq2 : equalConcatL a head2 = equalConcatR b head2 := by
      rw [hh2]
      by_cases h1 : size ≠ 0
      · rw [if_pos h1]
        rw [equalConcatL_cons, equalConcatR_cons, if_pos rfl, if_pos rfl]
        dsimp only
        rw [Nat.add_sub_cancel_left, Nat.add_sub_cancel_left]
        rw [matchAt_take_drop a b ai bj size hv]
        rfl
      · rw [if_neg h1]
        rfl
    constructor
    · rw [List.append_assoc]
      exact opChain_append _ _ head1 (head2 ++ opcodesFromBlocks (ai + size) (bj + size) rest)
        i0 j0 ai bj hchain1
        (opChain_append _ _ head2 _ ai bj (ai + size) (bj + size) hchain2 hrec.1)
    · rw [equalConcatL_append, equalConcatL_append, equalConcatR_append,
        equalConcatR_append, heq1.1, heq1.2, heq2, hrec.2]

theorem opChain_sublist_left (a : List String) :
    ∀ (ops : List Opcode) (i j iend jend : Nat),
      OpChain iend jend i j ops →
      (equalConcatL a ops).Sublist (a.drop i) := by
  intro ops
  induction ops with
  | nil =>
    intro i j iend jend _
    exact List.nil_sublist _
  | cons op rest ih =>
    intro i j iend jend hchain
    obtain ⟨h1, h2, h3, h4, h5⟩ := hchain
    unfold equalConcatL
    by_cases ht : op.tag = Tag.equal
    · rw [if_pos ht]
      have hrec := ih op.i2 op.j2 iend jend h5
      have hdecomp : a.drop i = (a.drop i).take (op.i2 - i) ++ a.drop op.i2 := by
        conv_lhs => rw [← List.take_append_drop (op.i2 - i) (a.drop i)]
        congr 1
        rw [List.drop_drop]
        congr 1
        omega
      rw [hdecomp, h1]
      exact List.Sublist.append (List.Sublist.refl _) hrec
    · rw [if_neg ht]
      have hrec := ih op.i2 op.j2 iend jend h5
      apply hrec.trans
      have hdd : a.drop op.i2 = (a.drop i).drop (op.i2 - i) := by
        rw [List.drop_drop]
        congr 1
        omega
      rw [hdd]
      exact List.drop_sublist _ _

theorem opChain_sublist_right (b : List String) :
    ∀ (ops : List Opcode) (i j iend jend : Nat),
      OpChain iend jend i j ops →
      (equalConcatR b ops).Sublist (b.drop j) := by
  intro ops
  induction ops with
  | nil =>
    intro i j iend jend _
    exact List.nil_sublist _
  | cons op rest ih =>
    intro i j iend jend hchain
    obtain ⟨h1, h2, h3, h4, h5⟩ := hchain
    unfold equalConcatR
    by_cases ht : op.tag = Tag.equal
    · rw [if_pos ht]
      have hrec := ih op.i2 op.j2 iend jend h5
      have hdecomp : b.drop j = (b.drop j).take (op.j2 - j) ++ b.drop op.j2 := by
        conv_lhs => rw [← List.take_append_drop (op.j2 - j) (b.drop j)]
        congr 1
        rw [List.drop_drop]
        congr 1
        omega
      rw [hdecomp, h2]
      exact List.Sublist.append (List.Sublist.refl _) hrec
    · rw [if_neg ht]
      have hrec := ih op.i2 op.j2 iend jend h5
      apply hrec.trans
      have hdd : b.drop op.j2 = (b.drop j).drop (op.j2 - j) := by
        rw [List.drop_drop]
        congr 1
        omega
      rw [hdd]
      exact List.drop_sublist _ _

end Difflib

/-- C1: for every pair of line sequences, the opcode list produced by
the sequence matcher tiles `[0, len L)` and `[0, len R)` exactly —
consecutive opcodes' ranges abut with no gaps or overlaps, starting at
`(0, 0)` and ending at `(len L, len R)` — and concatenating the slices
of the `equal` opcodes in order yields the same list on both sides,
a common subsequence of `L` and `R`. -/
theorem opcode_coverage_spec (L R : List String) :
    OpChain L.length R.length 0 0 (Difflib.getOpcodes L R) ∧
    equalConcatL L (Difflib.getOpcodes L R)
      = equalConcatR R (Difflib.getOpcodes L R) ∧
    (equalConcatL L (Difflib.getOpcodes L R)).Sublist L ∧
    (equalConcatL L (Difflib.getOpcodes L R)).Sublist R := by
  obtain ⟨hval, hpair, hend⟩ := Difflib.getMatchingBlocks_inv L R
  have hspec := Difflib.opcodesFromBlocks_spec L R (Difflib.getMatchingBlocks L R) 0 0
    hval (fun m _ => ⟨Nat.zero_le _, Nat.zero_le _⟩) hpair
  rw [hend] at hspec
  have hops : Difflib.getOpcodes L R
      = Difflib.opcodesFromBlocks 0 0 (Difflib.getMatchingBlocks L R) := rfl
  rw [hops]
  refine ⟨hspec.1, hspec.2, ?_, ?_⟩
  · have := Difflib.opChain_sublist_left L _ 0 0 L.length R.length hspec.1
    rwa [List.drop_zero] at this
  · rw [hspec.2]
    have := Difflib.opChain_sublist_right R _ 0 0 L.length R.length hspec.1
    rwa [List.drop_zero] at this

end TextDiffMerge
